import Mathlib

/-!
# Verification development for `translator/ast_walker.go`

The walker lowers the declarations of a parsed C translation unit into the
translator IR (`CDecl`, `CTypeSpec`, `CStructSpec`, `CEnumSpec`, `CFunctionSpec`).

Embedding conventions
* The parser library (`cc`, `xc`) is an external collaborator.  Its values are modelled by
  plain data: a `cc.Type` is a `CCType`, whose pointer and array levels are structural
  (a finite chain) and whose struct, union and function nodes refer by identifier into a
  type graph (`Env.Members`, `Env.Result`, `Env.Parameters`), so that self-referential and
  mutually referential aggregates are ordinary inputs.
* A Go panic is the error side of `Except Fatal`.
* The translator receiver `t` is passed and returned explicitly.
* Recursion of `typeSpec` through `structSpec` and `functionSpec` is driven by a fuel
  counter that is independent of the depth argument; running out of fuel is the distinct
  error `Fatal.outOfFuel`.
-/

namespace CForGo

/-! ## Parser side data -/

/-- Lexer token `xc.Token`: `Val` is the dictionary identifier (zero when the token is
absent), `S` the text returned by `Token.S()`, `Pos` its source position. -/
structure Token where
  Val : Nat
  S : String
  Pos : Nat
deriving DecidableEq, Repr

/-- Direct declarator chain `cc.DirectDeclarator`.
* `ident` is case 0 (IDENTIFIER), carrying `dd.Token`;
* `paren` is case 1, a parenthesised declarator: `pointers` is the pointer part of the
  enclosed declarator and `inner` is `dd.Declarator.DirectDeclarator`;
* `suffix` is any later case (array suffixes and parameter lists): `production` numbers
  the production among them and `operand` is `dd.DirectDeclarator`. -/
inductive DirectDeclarator where
  | ident (Token : Token)
  | paren (pointers : Nat) (inner : DirectDeclarator)
  | suffix (production : Nat) (operand : DirectDeclarator)
deriving DecidableEq, Repr

/-- Declaration specifier queries used by the walker (`cc.Specifier`).  `TypedefName` is
the dictionary identifier of a typedef name used as type specifier, zero when there is
none. -/
structure Specifier where
  IsConst : Bool := false
  IsTypedef : Bool := false
  IsStatic : Bool := false
  TypedefName : Nat := 0
deriving DecidableEq, Repr

/-- The declarator attached to a type, as seen through `typ.Declarator()`: its raw
specifier, its direct declarator and its position. -/
structure TypeDeclarator where
  RawSpecifier : Specifier := {}
  DirectDeclarator : DirectDeclarator := .ident ⟨0, "", 0⟩
  Pos : Nat := 0
deriving DecidableEq, Repr

/-- Kinds reported by `cc.Type.Kind()`.  The constructors named after the Go constants
are the ones the walker mentions; `other` stands for every further kind of the parser
library. -/
inductive Kind where
  | Void | Char | SChar | UChar | Short | UShort | Int | UInt | Long | ULong
  | LongLong | ULongLong | Float | Double | LongDouble | Bool
  | FloatComplex | DoubleComplex | LongDoubleComplex
  | Enum | Union | Struct | Function | Ptr | Array
  | other (code : Nat)
deriving DecidableEq, Repr

/-- Kinds of types that have no component: the arithmetic kinds, void, and every kind
that the walker does not name (`other`). -/
inductive ScalarKind where
  | Void | Char | SChar | UChar | Short | UShort | Int | UInt | Long | ULong
  | LongLong | ULongLong | Float | Double | LongDouble | Bool
  | FloatComplex | DoubleComplex | LongDoubleComplex
  | other (code : Nat)
deriving DecidableEq, Repr

/-- A constant folded by the parser, the dynamic content of a Go interface value: an
integer, or any other constant (floating point, string literal and so on), kept by its
source text. -/
inductive Constant where
  | int (v : Int)
  | other (text : String)
deriving DecidableEq, Repr

/-- Enumeration constant as returned by `typ.EnumeratorList()`: the defining token and
the value resolved by the parser (`none` is Go `nil`). -/
structure Enumerator where
  DefTok : Token
  Value : Option Constant
deriving DecidableEq, Repr

/-- A resolved C type `cc.Type`.  Every node carries `typ.Specifier()` and
`typ.Declarator()`.
* `scalar`: a type without components, of the given kind;
* `ptr`: pointer, with `typ.Element()`;
* `array`: array, with `typ.Elements()` and `typ.Element()`; the walker guards against a
  negative element count, and the parser reports an array of unknown bound not as an
  array but as a pointer to its element;
* `enum`: enumeration with `typ.Tag()` and `typ.EnumeratorList()`;
* `struct`, `union`: aggregate with `typ.Tag()` and a node identifier under which the type
  graph stores `typ.Members()`;
* `function`: function type with a node identifier under which the type graph stores
  `typ.Result()` and `typ.Parameters()`. -/
inductive CCType where
  | scalar (kind : ScalarKind) (spec : Specifier) (decl : TypeDeclarator)
  | ptr (spec : Specifier) (decl : TypeDeclarator) (element : CCType)
  | array (spec : Specifier) (decl : TypeDeclarator) (elements : Int) (element : CCType)
  | enum (spec : Specifier) (decl : TypeDeclarator) (tag : Nat) (enumerators : List Enumerator)
  | struct (spec : Specifier) (decl : TypeDeclarator) (tag : Nat) (node : Nat)
  | union (spec : Specifier) (decl : TypeDeclarator) (tag : Nat) (node : Nat)
  | function (spec : Specifier) (decl : TypeDeclarator) (node : Nat)
deriving DecidableEq, Repr

namespace ScalarKind

/-- The `cc.Kind` of a component-free type. -/
def toKind : ScalarKind → Kind
  | .Void => .Void | .Char => .Char | .SChar => .SChar | .UChar => .UChar
  | .Short => .Short | .UShort => .UShort | .Int => .Int | .UInt => .UInt
  | .Long => .Long | .ULong => .ULong | .LongLong => .LongLong | .ULongLong => .ULongLong
  | .Float => .Float | .Double => .Double | .LongDouble => .LongDouble | .Bool => .Bool
  | .FloatComplex => .FloatComplex | .DoubleComplex => .DoubleComplex
  | .LongDoubleComplex => .LongDoubleComplex
  | .other code => .other code

end ScalarKind

namespace CCType

/-- Method `typ.Kind()`. -/
def Kind : CCType → CForGo.Kind
  | .scalar k _ _ => k.toKind
  | .ptr _ _ _ => .Ptr
  | .array _ _ _ _ => .Array
  | .enum _ _ _ _ => .Enum
  | .struct _ _ _ _ => .Struct
  | .union _ _ _ _ => .Union
  | .function _ _ _ => .Function

/-- Method `typ.Specifier()`. -/
def Specifier : CCType → CForGo.Specifier
  | .scalar _ s _ => s
  | .ptr s _ _ => s
  | .array s _ _ _ => s
  | .enum s _ _ _ => s
  | .struct s _ _ _ => s
  | .union s _ _ _ => s
  | .function s _ _ => s

/-- Method `typ.Declarator()`. -/
def Declarator : CCType → TypeDeclarator
  | .scalar _ _ d => d
  | .ptr _ d _ => d
  | .array _ d _ _ => d
  | .enum _ d _ _ => d
  | .struct _ d _ _ => d
  | .union _ d _ _ => d
  | .function _ d _ => d

/-- Method `typ.Tag()`: the dictionary identifier of the tag, zero when there is none. -/
def Tag : CCType → Nat
  | .enum _ _ tag _ => tag
  | .struct _ _ tag _ => tag
  | .union _ _ tag _ => tag
  | _ => 0

/-- Method `typ.EnumeratorList()`. -/
def EnumeratorList : CCType → List Enumerator
  | .enum _ _ _ ens => ens
  | _ => []

end CCType

/-- Struct or union member `cc.Member`; `Declarator` holds the position of the member
declarator when the member has one. -/
structure Member where
  Name : Nat
  Typ : CCType
  Declarator : Option Nat
deriving DecidableEq, Repr

/-- Function parameter `cc.Parameter`; `Declarator` is the position of its declarator,
which `functionSpec` reads without a nil check. -/
structure Parameter where
  Name : Nat
  Typ : CCType
  Declarator : Nat
deriving DecidableEq, Repr

/-- Node bound to a tag in the file scope (`Binding.Node`). -/
inductive BindingNode where
  | StructOrUnionSpecifier (IdentifierOpt : Option Token)
  | Token (tok : Token)
  | other
deriving DecidableEq, Repr

/-- Top level declarator `cc.Declarator`: its resolved type `d.Type` (field `Typ`), its `DirectDeclarator`,
its `RawSpecifier()` and its position. -/
structure Declarator where
  Typ : CCType
  DirectDeclarator : DirectDeclarator
  RawSpecifier : Specifier := {}
  Pos : Nat := 0
deriving DecidableEq, Repr

/-- Initializer expression `init.Expression`: the folded value `Value` (`none` is Go
`nil`, for an expression that is no constant) and the text `Token.S()`. -/
structure Expression where
  Value : Option Constant
  TokenS : String
deriving DecidableEq, Repr

/-- Initializer of an init declarator.  `Expression` is `none` (a Go nil pointer) for a
brace enclosed initializer list such as `{1, 2}`. -/
structure Initializer where
  Expression : Option Expression
deriving DecidableEq, Repr

/-- Entry of an init declarator list. -/
structure InitDeclarator where
  Declarator : Declarator
  Initializer : Option Initializer
deriving DecidableEq, Repr

/-- Declaration node `cc.Declaration`: the optional init declarator list, and the result
of `d.Declarator()` used when there is no list. -/
structure Declaration where
  InitDeclaratorListOpt : Option (List InitDeclarator)
  Declarator : Option Declarator
deriving DecidableEq, Repr

/-- External declaration `cc.ExternalDeclaration`: case 0 is a function definition,
case 1 a declaration, `other` any further case. -/
inductive ExternalDeclaration where
  | FunctionDefinition
  | Declaration (d : Declaration)
  | other (case : Nat)
deriving DecidableEq, Repr

/-- Translation unit `cc.TranslationUnit`: the file scope tag lookup
(`unit.Declarations.Lookup(cc.NSTags, _)`) and the linked list of external
declarations in source order (the first entry is `unit.ExternalDeclaration`). -/
structure TranslationUnit where
  Declarations : Nat → BindingNode
  first : ExternalDeclaration
  rest : List ExternalDeclaration

/-! ## Translator IR -/

/-- Modelled from the spec: the declaration of `CTypeSpec` is not part of the walker
file.  The scalar IR node carries the common decoration set (const, pointer depth,
outer and inner array bounds as ordered sequences of unsigned numbers, raw name) and
the modifier flags.  The spec gives no width for the pointer depth, so `Pointers` is an
unbounded natural number. -/
structure CTypeSpec where
  Raw : String := ""
  Base : String := ""
  Const : Bool := false
  Signed : Bool := false
  Unsigned : Bool := false
  Short : Bool := false
  Long : Bool := false
  Complex : Bool := false
  Pointers : Nat := 0
  OuterArr : List Nat := []
  InnerArr : List Nat := []
deriving DecidableEq, Repr

namespace CTypeSpec

/-- Modelled from the spec: `AddOuterArr` is declared outside the walker file; a known
bound is appended to `outer_array_dims`. -/
def AddOuterArr (c : CTypeSpec) (size : Nat) : CTypeSpec :=
  { c with OuterArr := c.OuterArr ++ [size] }

/-- Modelled from the spec: `AddInnerArr` is declared outside the walker file; a known
bound is appended to `inner_array_dims`. -/
def AddInnerArr (c : CTypeSpec) (size : Nat) : CTypeSpec :=
  { c with InnerArr := c.InnerArr ++ [size] }

end CTypeSpec

/-- Declaration record `CDecl`, over the type of IR nodes. -/
structure CDeclOf (T : Type) where
  Spec : Option T := none
  Name : String := ""
  Value : Option Constant := none
  Expression : String := ""
  IsStatic : Bool := false
  IsTypedef : Bool := false
  Pos : Nat := 0
deriving Repr

/-- Struct or union IR node `CStructSpec`, over the type of IR nodes. -/
structure CStructSpecOf (T : Type) where
  Tag : String := ""
  IsUnion : Bool := false
  Members : List (CDeclOf T) := []
  Pointers : Nat := 0
  OuterArr : List Nat := []
  InnerArr : List Nat := []
  Typedef : String := ""
deriving Repr

/-- Enum IR node `CEnumSpec`, over the type of IR nodes. -/
structure CEnumSpecOf (T : Type) where
  Tag : String := ""
  Members : List (CDeclOf T) := []
  Pointers : Nat := 0
  OuterArr : List Nat := []
  InnerArr : List Nat := []
  Typedef : String := ""
deriving Repr

/-- Function IR node `CFunctionSpec`, over the type of IR nodes. -/
structure CFunctionSpecOf (T : Type) where
  Raw : String := ""
  Return : Option T := none
  Params : List (CDeclOf T) := []
  Pointers : Nat := 0
  Typedef : String := ""
deriving Repr

/-- The IR node interface `CType` with its four implementations. -/
inductive CType where
  | typeSpec (s : CTypeSpec)
  | structSpec (s : CStructSpecOf CType)
  | enumSpec (s : CEnumSpecOf CType)
  | functionSpec (s : CFunctionSpecOf CType)

abbrev CDecl := CDeclOf CType
abbrev CStructSpec := CStructSpecOf CType
abbrev CEnumSpec := CEnumSpecOf CType
abbrev CFunctionSpec := CFunctionSpecOf CType

namespace CType

/-- Pointer depth recorded on an IR node. -/
def Pointers : CType → Nat
  | .typeSpec s => s.Pointers
  | .structSpec s => s.Pointers
  | .enumSpec s => s.Pointers
  | .functionSpec s => s.Pointers

/-- Outer array bounds recorded on an IR node; a function node has no such field. -/
def OuterArr : CType → List Nat
  | .typeSpec s => s.OuterArr
  | .structSpec s => s.OuterArr
  | .enumSpec s => s.OuterArr
  | .functionSpec _ => []

/-- Inner array bounds recorded on an IR node; a function node has no such field. -/
def InnerArr : CType → List Nat
  | .typeSpec s => s.InnerArr
  | .structSpec s => s.InnerArr
  | .enumSpec s => s.InnerArr
  | .functionSpec _ => []

end CType

/-! ## Translator state and collaborators -/

/-- Constant kinds indexing `t.constRules`; the walker only reads `ConstEnum`. -/
inductive ConstKind where
  | ConstEnum
  | other (n : Nat)
deriving DecidableEq, Repr

/-- Constant resolution policies: `ConstCGOAlias` is the foreign alias policy,
`ConstExpand` the expand policy, and `ConstEval` the Value policy; it also stands for any
further rule value, which the switch of `enumSpec` sends to the same default case. -/
inductive ConstRule where
  | ConstEval
  | ConstCGOAlias
  | ConstExpand
deriving DecidableEq, Repr

/-- The fields of the `Translator` receiver that the walker reads or writes.  Go maps are
finite partial functions: `valueMap name = none` means the key is absent, and
`valueMap name = some none` that the key is bound to `nil`. -/
structure Translator where
  constRules : ConstKind → ConstRule
  fileScope : Nat → BindingNode
  declares : List CDecl
  typedefs : List CDecl
  typedefsSet : String → Bool
  valueMap : String → Option (Option Constant)
  exprMap : String → Option String
  tagMap : List (String × CDecl)

/-- Functions and tables that the walker uses but that are declared outside the walker
file, together with the type graph of the parser.
* `blessName`, `DictS` (`xc.Dict.S`), `PromoteType`, `SetRaw`: helper functions;
* `registerTags`: what `registerTagsOf` does to the tag registry;
* `Members`, `Result`, `Parameters`: the type graph behind `typ.Members()`,
  `typ.Result()` and `typ.Parameters()`, indexed by node identifier. -/
structure Env where
  blessName : String → String
  DictS : Nat → String
  PromoteType : CEnumSpec → Option Constant → CTypeSpec
  SetRaw : CType → String → CType
  registerTags : List (String × CDecl) → CDecl → List (String × CDecl)
  Members : Nat → List Member
  Result : Nat → Option CCType
  Parameters : Nat → List Parameter

/-- Fatal outcomes: the two panics of the walker, the run time panic of a nil pointer
dereference, and exhaustion of the fuel of the embedding. -/
inductive Fatal where
  | unknownType (typ : CCType)
  | enumValueNil
  | nilDereference
  | outOfFuel
deriving DecidableEq, Repr

/-- Go map assignment `m[k] = v`. -/
def mapSet {V : Type} (m : String → Option V) (k : String) (v : V) : String → Option V :=
  fun x => if x = k then some v else m x

/-- Go set insertion `s[k] = struct{}{}`. -/
def setInsert (s : String → Bool) (k : String) : String → Bool :=
  fun x => if x = k then true else s x

/-! ## The walker -/

/-- Function `identifierOf`: the declared identifier of a direct declarator chain. -/
def identifierOf (env : Env) : DirectDeclarator → String
  | .ident tok => if tok.Val = 0 then "" else env.blessName tok.S
  | .paren _ inner => identifierOf env inner
  | .suffix _ operand => identifierOf env operand

/-- Function `typedefNameOf`. -/
def typedefNameOf (env : Env) (typ : CCType) : String :=
  let rawSpec := typ.Declarator.RawSpecifier
  if rawSpec.TypedefName > 0 then env.blessName (env.DictS rawSpec.TypedefName)
  else if rawSpec.IsTypedef then identifierOf env typ.Declarator.DirectDeclarator
  else ""

/-- Function `paramName`. -/
def paramName (env : Env) (p : Parameter) : String :=
  if p.Name = 0 then "" else env.blessName (env.DictS p.Name)

/-- Function `memberName`. -/
def memberName (env : Env) (m : Member) : String :=
  if m.Name = 0 then "" else env.blessName (env.DictS m.Name)

/-- Method `getStructTag`: the tag bound in the file scope. -/
def getStructTag (env : Env) (t : Translator) (typ : CCType) : String :=
  match t.fileScope typ.Tag with
  | .StructOrUnionSpecifier (some tok) => env.blessName tok.S
  | .StructOrUnionSpecifier none => ""
  | .Token tok => env.blessName tok.S
  | .other => ""

/-- The constant `maxDeepLevel`. -/
def maxDeepLevel : Nat := 3

/-- Body of the loop of `enumSpec` over `typ.EnumeratorList()`. -/
def enumSpecLoop (env : Env) :
    CEnumSpec → Translator → List Enumerator → Except Fatal (CEnumSpec × Translator)
  | spec, t, [] => .ok (spec, t)
  | spec, t, en :: rest =>
    let name := env.blessName en.DefTok.S
    let m : CDecl := { Name := name, Pos := en.DefTok.Pos }
    match en.Value with
    | none => .error .enumValueNil
    | some v =>
      let m : CDecl :=
        if t.constRules .ConstEnum = .ConstCGOAlias then { m with Expression := "C." ++ name }
        else if t.constRules .ConstEnum = .ConstExpand then { m with Expression := "C." ++ name }
        else { m with Value := some v }
      let m : CDecl := { m with Spec := some (.typeSpec (env.PromoteType spec en.Value)) }
      let spec : CEnumSpec := { spec with Members := spec.Members ++ [m] }
      let t : Translator :=
        { t with valueMap := mapSet t.valueMap m.Name en.Value,
                 exprMap := mapSet t.exprMap m.Name m.Expression }
      enumSpecLoop env spec t rest

/-- Method `enumSpec`. -/
def enumSpec (env : Env) (t : Translator) (base : CTypeSpec) (typ : CCType) :
    Except Fatal (CEnumSpec × Translator) :=
  let tag := env.blessName (env.DictS typ.Tag)
  let spec : CEnumSpec :=
    { Tag := tag, Pointers := base.Pointers, OuterArr := base.OuterArr,
      InnerArr := base.InnerArr }
  enumSpecLoop env spec t typ.EnumeratorList

/-- The type of the recursive entry `t.typeSpec(typ, deep, isRet)` as seen by the
aggregate builders. -/
abbrev Lowering := Translator → CCType → Nat → Bool → Except Fatal (CType × Translator)

/-- The declaration that the loop of `structSpec` builds for a member whose type lowered
to `ty`: the position is that of the member declarator when there is one. -/
def structMember (env : Env) (m : Member) (ty : CType) : CDecl :=
  let pos : Nat := match m.Declarator with
    | some p => p
    | none => 0
  { Name := memberName env m, Spec := some ty, Pos := pos }

/-- Body of the loop of `structSpec` over the members; `lower` is `t.typeSpec`. -/
def structSpecLoop (env : Env) (lower : Lowering) (deep : Nat) :
    CStructSpec → Translator → List Member → Except Fatal (CStructSpec × Translator)
  | spec, t, [] => .ok (spec, t)
  | spec, t, m :: rest =>
    match lower t m.Typ (deep + 1) false with
    | .error e => .error e
    | .ok (ty, t) =>
      structSpecLoop env lower deep
        { spec with Members := spec.Members ++ [structMember env m ty] } t rest

/-- Members of an aggregate type, `typ.Members()`. -/
def membersOf (env : Env) : CCType → List Member
  | .struct _ _ _ node => env.Members node
  | .union _ _ _ node => env.Members node
  | _ => []

/-- Method `structSpec`; `lower` is `t.typeSpec`. -/
def structSpec (env : Env) (lower : Lowering) (t : Translator) (base : CTypeSpec)
    (typ : CCType) (deep : Nat) : Except Fatal (CStructSpec × Translator) :=
  let tag := getStructTag env t typ
  let spec : CStructSpec :=
    { Tag := tag, IsUnion := decide (typ.Kind = .Union), Pointers := base.Pointers,
      OuterArr := base.OuterArr, InnerArr := base.InnerArr }
  if deep > maxDeepLevel then .ok (spec, t)
  else structSpecLoop env lower deep spec t (membersOf env typ)

/-- The declaration that the loop of `functionSpec` builds for a parameter whose type
lowered to `ty`. -/
def functionParam (env : Env) (p : Parameter) (ty : CType) : CDecl :=
  { Name := paramName env p, Spec := some ty, Pos := p.Declarator }

/-- Body of the loop of `functionSpec` over the parameters; `lower` is `t.typeSpec`. -/
def functionSpecLoop (env : Env) (lower : Lowering) (deep : Nat) :
    CFunctionSpec → Translator → List Parameter → Except Fatal (CFunctionSpec × Translator)
  | spec, t, [] => .ok (spec, t)
  | spec, t, p :: rest =>
    match lower t p.Typ (deep + 1) false with
    | .error e => .error e
    | .ok (ty, t) =>
      functionSpecLoop env lower deep
        { spec with Params := spec.Params ++ [functionParam env p ty] } t rest

/-- Result type of a function type, `typ.Result()`. -/
def resultOf (env : Env) : CCType → Option CCType
  | .function _ _ node => env.Result node
  | _ => none

/-- Parameters of a function type, `typ.Parameters()`. -/
def parametersOf (env : Env) : CCType → List Parameter
  | .function _ _ node => env.Parameters node
  | _ => []

/-- Return type step of `functionSpec`: lowered in return position unless the result is
missing or void. -/
def functionSpecReturn (env : Env) (lower : Lowering) (deep : Nat) (spec : CFunctionSpec)
    (t : Translator) (typ : CCType) : Except Fatal (CFunctionSpec × Translator) :=
  match resultOf env typ with
  | none => .ok (spec, t)
  | some ret =>
    if ret.Kind ≠ .Void then
      match lower t ret (deep + 1) true with
      | .error e => .error e
      | .ok (ty, t) => .ok ({ spec with Return := some ty }, t)
    else .ok (spec, t)

/-- Method `functionSpec`; `lower` is `t.typeSpec`. -/
def functionSpec (env : Env) (lower : Lowering) (t : Translator) (base : CTypeSpec)
    (typ : CCType) (deep : Nat) : Except Fatal (CFunctionSpec × Translator) :=
  let spec : CFunctionSpec :=
    { Raw := identifierOf env typ.Declarator.DirectDeclarator, Pointers := base.Pointers }
  if deep > maxDeepLevel then .ok (spec, t)
  else
    match functionSpecReturn env lower deep spec t typ with
    | .error e => .error e
    | .ok (spec, t) => functionSpecLoop env lower deep spec t (parametersOf env typ)

/-- First loop of `typeSpec`: strip leading array levels, recording known bounds. -/
def stripOuterArr : CCType → CTypeSpec → CCType × CTypeSpec
  | .array _ _ size element, spec =>
    stripOuterArr element (if size ≥ 0 then spec.AddOuterArr size.toNat else spec)
  | typ, spec => (typ, spec)

/-- Second loop of `typeSpec`: strip pointer levels, counting them. -/
def stripPointers : CCType → CTypeSpec → CCType × CTypeSpec
  | .ptr _ _ element, spec => stripPointers element { spec with Pointers := spec.Pointers + 1 }
  | typ, spec => (typ, spec)

/-- Third loop of `typeSpec`: strip further array levels, recording known bounds. -/
def stripInnerArr : CCType → CTypeSpec → CCType × CTypeSpec
  | .array _ _ size element, spec =>
    stripInnerArr element (if size ≥ 0 then spec.AddInnerArr size.toNat else spec)
  | typ, spec => (typ, spec)

/-- The arithmetic cases of the kind switch of `typeSpec`; `none` is the default case. -/
def scalarCase (spec : CTypeSpec) : ScalarKind → Option CTypeSpec
  | .Void => some { spec with Base := "void" }
  | .Char => some { spec with Base := "char" }
  | .SChar => some { spec with Base := "char", Signed := true }
  | .UChar => some { spec with Base := "char", Unsigned := true }
  | .Short => some { spec with Base := "int", Short := true }
  | .UShort => some { spec with Base := "int", Short := true, Unsigned := true }
  | .Int => some { spec with Base := "int" }
  | .UInt => some { spec with Base := "int", Unsigned := true }
  | .Long => some { spec with Base := "int", Long := true }
  | .ULong => some { spec with Base := "int", Long := true, Unsigned := true }
  | .LongLong => some { spec with Base := "long", Long := true }
  | .ULongLong => some { spec with Base := "long", Long := true, Unsigned := true }
  | .Float => some { spec with Base := "float" }
  | .Double => some { spec with Base := "double" }
  | .LongDouble => some { spec with Base := "double", Long := true }
  | .Bool => some { spec with Base := "_Bool" }
  | .FloatComplex => some { spec with Base := "complexfloat", Complex := true }
  | .DoubleComplex => some { spec with Base := "complexdouble", Complex := true }
  | .LongDoubleComplex => some { spec with Base := "complexdouble", Long := true, Complex := true }
  | .other _ => none

/-- The kind switch of `typeSpec`, applied to the type left by the three loops and the
decorations accumulated so far; `lower` is `t.typeSpec` for the nested calls. -/
def typeSpecSwitch (env : Env) (lower : Lowering) (t : Translator) (spec : CTypeSpec)
    (typ : CCType) (deep : Nat) (isRet : Bool) : Except Fatal (CType × Translator) :=
  match typ with
  | .scalar kind _ _ =>
    match scalarCase spec kind with
    | some s => .ok (.typeSpec s, t)
    | none => .error (.unknownType typ)
  | .enum _ _ _ _ =>
    match enumSpec env t spec typ with
    | .error e => .error e
    | .ok (s, t) =>
      .ok (.enumSpec (if !isRet then { s with Typedef := typedefNameOf env typ } else s), t)
  | .union _ _ _ _ =>
    .ok (.structSpec
      { Tag := getStructTag env t typ, IsUnion := true, Pointers := spec.Pointers,
        OuterArr := spec.OuterArr, InnerArr := spec.InnerArr,
        Typedef := typedefNameOf env typ }, t)
  | .struct _ _ _ _ =>
    match structSpec env lower t spec typ (deep + 1) with
    | .error e => .error e
    | .ok (s, t) =>
      .ok (.structSpec (if !isRet then { s with Typedef := typedefNameOf env typ } else s), t)
  | .function _ _ _ =>
    match functionSpec env lower t spec typ (deep + 1) with
    | .error e => .error e
    | .ok (s, t) =>
      if !isRet && !typ.Specifier.IsTypedef then
        let s : CFunctionSpec := { s with Typedef := typedefNameOf env typ }
        .ok (.functionSpec { s with Return := s.Return.map (fun r => env.SetRaw r s.Typedef) }, t)
      else .ok (.functionSpec s, t)
  | .ptr _ _ _ => .error (.unknownType typ)
  | .array _ _ _ _ => .error (.unknownType typ)

/-- Opening statements of `typeSpec`: the const flag of the type and, outside return
position, its typedef name as raw name. -/
def typeSpecInit (env : Env) (typ : CCType) (isRet : Bool) : CTypeSpec :=
  let spec : CTypeSpec := { Const := typ.Specifier.IsConst }
  if !isRet then { spec with Raw := typedefNameOf env typ } else spec

/-- The three loops of `typeSpec` in sequence: the type that is left and the decorations
accumulated. -/
def stripLevels (typ : CCType) (spec : CTypeSpec) : CCType × CTypeSpec :=
  let r1 := stripOuterArr typ spec
  let r2 := stripPointers r1.1 r1.2
  stripInnerArr r2.1 r2.2

/-- Method `typeSpec` with a fuel counter bounding the nesting of recursive calls. -/
def typeSpecFuel (env : Env) : Nat → Lowering
  | 0, _, _, _, _ => .error .outOfFuel
  | fuel + 1, t, typ, deep, isRet =>
    let r := stripLevels typ (typeSpecInit env typ isRet)
    typeSpecSwitch env (typeSpecFuel env fuel) t r.2 r.1 deep isRet

/-- Method `typeSpec`.  The fuel `maxDeepLevel + 2` is enough at every depth, and any
larger fuel gives the same result. -/
def typeSpec (env : Env) : Lowering := typeSpecFuel env (maxDeepLevel + 2)

/-- Modelled from the spec: `registerTagsOf` is declared outside the walker file.  It
registers the tags referenced by the type of the declaration in the tag registry and
leaves the rest of the translator state alone. -/
def registerTagsOf (env : Env) (t : Translator) (decl : CDecl) : Translator :=
  { t with tagMap := env.registerTags t.tagMap decl }

/-- Method `declarator`. -/
def declarator (env : Env) (t : Translator) (d : Declarator) : Except Fatal (CDecl × Translator) :=
  match typeSpec env t d.Typ 0 false with
  | .error e => .error e
  | .ok (spec, t) =>
    .ok ({ Spec := some spec, Name := identifierOf env d.DirectDeclarator,
           IsTypedef := d.RawSpecifier.IsTypedef, IsStatic := d.RawSpecifier.IsStatic,
           Pos := d.Pos }, t)

/-- The first `if init != nil` block of the loop of `walkDeclaration`: the value and the
blessed text of `init.Expression` are stored on the declaration; `init.Expression` is
dereferenced without a nil check. -/
def attachInitializer (env : Env) (decl : CDecl) : Option Initializer → Except Fatal CDecl
  | none => .ok decl
  | some init =>
    match init.Expression with
    | none => .error .nilDereference
    | some e => .ok { decl with Value := e.Value, Expression := env.blessName e.TokenS }

/-- Body of the loop of `walkDeclaration` over the init declarator list. -/
def walkInitDeclaratorList (env : Env) :
    Translator → List CDecl → List InitDeclarator → Except Fatal (List CDecl × Translator)
  | t, declared, [] => .ok (declared, t)
  | t, declared, item :: list =>
    match declarator env t item.Declarator with
    | .error e => .error e
    | .ok (decl, t) =>
      match attachInitializer env decl item.Initializer with
      | .error e => .error e
      | .ok decl =>
        let t := registerTagsOf env t decl
        let declared := declared ++ [decl]
        let t : Translator := match item.Initializer with
          | some _ => { t with valueMap := mapSet t.valueMap decl.Name decl.Value,
                               exprMap := mapSet t.exprMap decl.Name decl.Expression }
          | none => t
        walkInitDeclaratorList env t declared list

/-- Method `walkDeclaration`. -/
def walkDeclaration (env : Env) (t : Translator) (d : Declaration) :
    Except Fatal (List CDecl × Translator) :=
  match d.InitDeclaratorListOpt with
  | some list => walkInitDeclaratorList env t [] list
  | none =>
    match d.Declarator with
    | some declr =>
      match declarator env t declr with
      | .error e => .error e
      | .ok (decl, t) => .ok ([decl], registerTagsOf env t decl)
    | none => .ok ([], t)

/-- Body of the loop of `walkExternalDeclaration` over the declared entries. -/
def classifyDeclares : Translator → List CDecl → Translator
  | t, [] => t
  | t, decl :: declares =>
    if decl.IsStatic then classifyDeclares t declares
    else if decl.IsTypedef then
      classifyDeclares
        { t with typedefs := t.typedefs ++ [decl],
                 typedefsSet := setInsert t.typedefsSet decl.Name } declares
    else classifyDeclares { t with declares := t.declares ++ [decl] } declares

/-- Method `walkExternalDeclaration`. -/
def walkExternalDeclaration (env : Env) (t : Translator) :
    ExternalDeclaration → Except Fatal Translator
  | .FunctionDefinition => .ok t
  | .Declaration d =>
    match walkDeclaration env t d with
    | .error e => .error e
    | .ok (declares, t) => .ok (classifyDeclares t declares)
  | .other _ => .ok t

/-- Loop of `walkTranslationUnit` over the linked list of external declarations. -/
def walkExternalDeclarations (env : Env) :
    Translator → List ExternalDeclaration → Except Fatal Translator
  | t, [] => .ok t
  | t, d :: rest =>
    match walkExternalDeclaration env t d with
    | .error e => .error e
    | .ok t => walkExternalDeclarations env t rest

/-- Method `walkTranslationUnit`. -/
def walkTranslationUnit (env : Env) (t : Translator) (unit : TranslationUnit) :
    Except Fatal Translator :=
  walkExternalDeclarations env { t with fileScope := unit.Declarations }
    (unit.first :: unit.rest)

/-! ## Specification side definitions and example data -/

/-- The innermost identifier leaf of a direct declarator chain. -/
def leafToken : DirectDeclarator → Token
  | .ident tok => tok
  | .paren _ inner => leafToken inner
  | .suffix _ operand => leafToken operand

/-- The value an enum member records under a policy: the resolved value under the Value
policy, nothing under the alias and expand policies. -/
def policyValue (rule : ConstRule) (v : Option Constant) : Option Constant :=
  match rule with
  | .ConstEval => v
  | .ConstCGOAlias => none
  | .ConstExpand => none

/-- The expression an enum member records under a policy: empty under the Value policy,
the cross reference `C.<name>` under the alias and expand policies. -/
def policyExpression (rule : ConstRule) (name : String) : String :=
  match rule with
  | .ConstEval => ""
  | .ConstCGOAlias => "C." ++ name
  | .ConstExpand => "C." ++ name

/-- Example collaborators: names are left as they are, the dictionary is a small table,
and the type graph holds the self-referential `struct N { struct N *next; }` under node 1
and the signature `(enum { x } p)` without result under node 2. -/
def exampleEnv : Env where
  blessName := fun s => s
  DictS := fun n =>
    if n = 1 then "Color" else if n = 2 then "N" else if n = 3 then "next"
    else if n = 4 then "p" else ""
  PromoteType := fun _ _ => { Base := "int" }
  SetRaw := fun c _ => c
  registerTags := fun m _ => m
  Members := fun n => if n = 1 then [⟨3, .ptr {} {} (.struct {} {} 2 1), some 7⟩] else []
  Result := fun _ => none
  Parameters := fun n =>
    if n = 2 then [⟨4, .enum {} {} 0 [⟨⟨20, "x", 9⟩, some (.int 0)⟩], 9⟩] else []

/-- Example translator state: empty, with the given enum policy. -/
def exampleTranslator (rule : ConstRule) : Translator where
  constRules := fun _ => rule
  fileScope := fun _ => .other
  declares := []
  typedefs := []
  typedefsSet := fun _ => false
  valueMap := fun _ => none
  exprMap := fun _ => none
  tagMap := []

/-- The type of `enum Color { RED, GREEN=5, BLUE }` with the values resolved upstream. -/
def colorEnum : CCType :=
  .enum {} {} 1
    [⟨⟨10, "RED", 1⟩, some (.int 0)⟩, ⟨⟨11, "GREEN", 2⟩, some (.int 5)⟩,
     ⟨⟨12, "BLUE", 3⟩, some (.int 6)⟩]

/-- The type `int`. -/
def intType : CCType := .scalar .Int {} {}

/-- The self-referential `struct N { struct N *next; }` of the example type graph. -/
def selfStruct : CCType := .struct {} {} 2 1

/-- An enum whose only enumerator carries no resolved value. -/
def valuelessEnum : CCType := .enum {} {} 0 [⟨⟨13, "A", 1⟩, none⟩]

/-- The direct declarator of `void (*name)(int)`: a parameter list suffix applied to the
parenthesised pointer declarator `*name`. -/
def callbackDeclarator : DirectDeclarator :=
  .suffix 4 (.paren 1 (.ident ⟨5, "name", 6⟩))

/-- Array levels with known bounds stacked over a type, outermost first; every level
carries its own specifier and declarator. -/
def arraysOver : List (Specifier × TypeDeclarator × Nat) → CCType → CCType
  | [], typ => typ
  | (s, d, n) :: rest, typ => .array s d (Int.ofNat n) (arraysOver rest typ)

/-- Pointer levels stacked over a type, outermost first. -/
def pointersOver : List (Specifier × TypeDeclarator) → CCType → CCType
  | [], typ => typ
  | (s, d) :: rest, typ => .ptr s d (pointersOver rest typ)

/-- The bounds of a stack of array levels, in stripping order. -/
def boundsOf (levels : List (Specifier × TypeDeclarator × Nat)) : List Nat :=
  levels.map (fun l => l.2.2)

namespace CCType

/-- A scalar, enum, struct or union type: what remains once arrays and pointers are
stripped, function types excluded. -/
def isBase : CCType → Bool
  | .scalar _ _ _ => true
  | .enum _ _ _ _ => true
  | .struct _ _ _ _ => true
  | .union _ _ _ _ => true
  | _ => false

end CCType

namespace Translator

/-- The part of the translator state that lowering and declaration walking leave alone:
the policy table, the file scope and the three output collections. -/
def sameOutputs (t t1 : Translator) : Prop :=
  t1.constRules = t.constRules ∧ t1.fileScope = t.fileScope ∧ t1.declares = t.declares
    ∧ t1.typedefs = t.typedefs ∧ t1.typedefsSet = t.typedefsSet

end Translator

/-- A recursive entry that leaves the outputs alone. -/
def Lowering.keepsOutputs (lower : Lowering) : Prop :=
  ∀ t typ deep isRet node t1, lower t typ deep isRet = .ok (node, t1) → t.sameOutputs t1

/-- What the loop of `enumSpec` records on the member built from an enumerator. -/
def memberOfEnumerator (env : Env) (rule : ConstRule) (m : CDecl) (en : Enumerator) : Prop :=
  m.Name = env.blessName en.DefTok.S
    ∧ m.Value = policyValue rule en.Value
    ∧ m.Expression = policyExpression rule (env.blessName en.DefTok.S)

/-- What `walkDeclaration` records on the declaration built from an init declarator: the
declared identifier, and the value and expression text of the initializer when there is
one, neither of them otherwise. -/
def declOfInitDeclarator (env : Env) (decl : CDecl) (item : InitDeclarator) : Prop :=
  decl.Name = identifierOf env item.Declarator.DirectDeclarator
    ∧ decl.IsStatic = item.Declarator.RawSpecifier.IsStatic
    ∧ decl.IsTypedef = item.Declarator.RawSpecifier.IsTypedef
    ∧ match item.Initializer with
      | some init =>
        ∃ e, init.Expression = some e ∧ decl.Value = e.Value
          ∧ decl.Expression = env.blessName e.TokenS
      | none => decl.Value = none ∧ decl.Expression = ""

/-- Number of declarators of a declaration node: the length of the init declarator list,
or one for a single declarator without list. -/
def declaratorCount (d : Declaration) : Nat :=
  match d.InitDeclaratorListOpt with
  | some list => list.length
  | none =>
    match d.Declarator with
    | some _ => 1
    | none => 0

/-- The declarations produced from the declaration entries of a unit, in source order: the
lists returned by `walkDeclaration` along the walk, concatenated.  Function definitions
and other entries contribute nothing. -/
def producedDeclarations (env : Env) :
    Translator → List ExternalDeclaration → Except Fatal (List CDecl)
  | _, [] => .ok []
  | t, .Declaration d :: rest =>
    match walkDeclaration env t d with
    | .error e => .error e
    | .ok (declares, t) =>
      match producedDeclarations env (classifyDeclares t declares) rest with
      | .error e => .error e
      | .ok more => .ok (declares ++ more)
  | t, .FunctionDefinition :: rest => producedDeclarations env t rest
  | t, .other _ :: rest => producedDeclarations env t rest

/-- A declaration is public when it is neither static nor a typedef. -/
def isPublic (d : CDecl) : Bool := !(d.IsStatic || d.IsTypedef)

/-- The declaration `static typedef int T;`, marked both static and typedef. -/
def staticTypedefDeclaration : Declaration :=
  { InitDeclaratorListOpt := some
      [⟨{ Typ := intType, DirectDeclarator := .ident ⟨30, "T", 1⟩,
          RawSpecifier := { IsTypedef := true, IsStatic := true } }, none⟩],
    Declarator := none }

/-- The declaration `typedef int T;`. -/
def typedefDeclaration : Declaration :=
  { InitDeclaratorListOpt := some
      [⟨{ Typ := intType, DirectDeclarator := .ident ⟨30, "T", 1⟩,
          RawSpecifier := { IsTypedef := true } }, none⟩],
    Declarator := none }

/-- The declaration `static int s;`. -/
def staticDeclaration : Declaration :=
  { InitDeclaratorListOpt := some
      [⟨{ Typ := intType, DirectDeclarator := .ident ⟨31, "s", 2⟩,
          RawSpecifier := { IsStatic := true } }, none⟩],
    Declarator := none }

/-- The declaration `int a = 1, *b;`. -/
def publicDeclaration : Declaration :=
  { InitDeclaratorListOpt := some
      [⟨{ Typ := intType, DirectDeclarator := .ident ⟨32, "a", 3⟩ },
        some ⟨some ⟨some (.int 1), "1"⟩⟩⟩,
       ⟨{ Typ := .ptr {} {} intType, DirectDeclarator := .ident ⟨33, "b", 4⟩ }, none⟩],
    Declarator := none }

/-- A translation unit: a function definition, `int a = 1, *b;`, `static int s;` and
`typedef int T;`. -/
def exampleUnit : TranslationUnit :=
  { Declarations := fun _ => .other,
    first := .FunctionDefinition,
    rest := [.Declaration publicDeclaration, .Declaration staticDeclaration,
             .Declaration typedefDeclaration] }

/-- A translator state that already holds one public declaration named `old`. -/
def startedTranslator : Translator :=
  { exampleTranslator .ConstEval with declares := [{ Name := "old" }] }

/-- The type of `int *(*p)[4]`: pointer to array of 4 pointers to `int`. -/
def pointerToArrayOfPointers : CCType :=
  .ptr {} {} (.array {} {} 4 (.ptr {} {} intType))

/-! ## Further specification side definitions and example data -/

namespace CCType

/-- The bounds of the leading array levels of a type, in stripping order; a level with a
negative element count contributes nothing, as the guard of the loops has it. -/
def arrayBounds : CCType → List Nat
  | .array _ _ n e => if n ≥ 0 then n.toNat :: arrayBounds e else arrayBounds e
  | _ => []

/-- The type below the leading array levels. -/
def belowArrays : CCType → CCType
  | .array _ _ _ e => belowArrays e
  | typ => typ

/-- The number of leading pointer levels of a type. -/
def pointerLevels : CCType → Nat
  | .ptr _ _ e => pointerLevels e + 1
  | _ => 0

/-- The type below the leading pointer levels. -/
def belowPointers : CCType → CCType
  | .ptr _ _ e => belowPointers e
  | typ => typ

/-- The type on which `typeSpec` switches: what is left below the outer arrays, then the
pointers, then the inner arrays. -/
def baseOf (typ : CCType) : CCType :=
  typ.belowArrays.belowPointers.belowArrays

end CCType

namespace CType

/-- The typedef alias carried by an IR node: the raw name of a scalar node, the Typedef
field of a struct, enum or function node. -/
def typedefAlias : CType → String
  | .typeSpec s => s.Raw
  | .structSpec s => s.Typedef
  | .enumSpec s => s.Typedef
  | .functionSpec s => s.Typedef

/-- The member declarations of a struct or enum node. -/
def members : CType → List CDecl
  | .structSpec s => s.Members
  | .enumSpec s => s.Members
  | _ => []

/-- The IR nodes of the members of a struct or enum node. -/
def memberNodes (c : CType) : List CType :=
  c.members.filterMap (fun m => m.Spec)

end CType

/-- Lowering of a sequence of types in order, each by the recursive entry at depth
`deep + 1` outside return position, the translator being passed along. -/
def lowerAll (lower : Lowering) (deep : Nat) :
    Translator → List CCType → Except Fatal (List CType × Translator)
  | t, [] => .ok ([], t)
  | t, typ :: rest =>
    match lower t typ (deep + 1) false with
    | .error e => .error e
    | .ok (ty, t) =>
      match lowerAll lower deep t rest with
      | .error e => .error e
      | .ok (tys, t) => .ok (ty :: tys, t)

/-- The return type of a function as the spec describes it: absent when the result type
is missing or void, otherwise the result lowered by the recursive entry at depth
`deep + 1` in return position. -/
def lowerReturn (env : Env) (lower : Lowering) (deep : Nat) (t : Translator) (typ : CCType) :
    Except Fatal (Option CType × Translator) :=
  match resultOf env typ with
  | none => .ok (none, t)
  | some ret =>
    if ret.Kind = .Void then .ok (none, t)
    else
      match lower t ret (deep + 1) true with
      | .error e => .error e
      | .ok (ty, t) => .ok (some ty, t)

/-- The types that lowering may reach from a type: the type itself, the element of a
pointer or array, the member types of a struct, the result and the parameter types of a
function.  Members of a union are not reached. -/
inductive Reaches (env : Env) : CCType → CCType → Prop where
  | here (typ : CCType) : Reaches env typ typ
  | ptr (s : Specifier) (d : TypeDeclarator) (e x : CCType) :
      Reaches env e x → Reaches env (.ptr s d e) x
  | array (s : Specifier) (d : TypeDeclarator) (n : Int) (e x : CCType) :
      Reaches env e x → Reaches env (.array s d n e) x
  | member (s : Specifier) (d : TypeDeclarator) (tag node : Nat) (m : Member) (x : CCType) :
      m ∈ env.Members node → Reaches env m.Typ x → Reaches env (.struct s d tag node) x
  | result (s : Specifier) (d : TypeDeclarator) (node : Nat) (r x : CCType) :
      env.Result node = some r → Reaches env r x → Reaches env (.function s d node) x
  | param (s : Specifier) (d : TypeDeclarator) (node : Nat) (p : Parameter) (x : CCType) :
      p ∈ env.Parameters node → Reaches env p.Typ x → Reaches env (.function s d node) x

/-- A name is registered from a type when it is the name of an enumerator of an enum that
lowering may reach from the type. -/
def registersName (env : Env) (typ : CCType) (k : String) : Prop :=
  ∃ s d tag ens, Reaches env typ (.enum s d tag ens)
    ∧ k ∈ ens.map (fun en => env.blessName en.DefTok.S)

/-- A recursive entry that writes the constant maps only under names registered from the
type it lowers. -/
def Lowering.keepsMaps (env : Env) (lower : Lowering) : Prop :=
  ∀ t typ deep isRet node t1 k, lower t typ deep isRet = .ok (node, t1) →
    ¬ registersName env typ k → t1.valueMap k = t.valueMap k ∧ t1.exprMap k = t.exprMap k

/-- The scalar node to which a component free type of the given kind lowers, if any. -/
def loweredScalar (env : Env) (t : Translator) (kind : ScalarKind) (s : Specifier)
    (d : TypeDeclarator) (deep : Nat) (isRet : Bool) : Option CTypeSpec :=
  match typeSpec env t (.scalar kind s d) deep isRet with
  | .ok (.typeSpec c, _) => some c
  | _ => none

/-- The type named by `U` after `typedef union { int i; } U;`: a union whose declarator
has the typedef name `U` (dictionary identifier 5) as type specifier. -/
def typedefUnion : CCType := .union {} { RawSpecifier := { TypedefName := 5 } } 0 9

/-- Example collaborators with function signatures: node 3 is `int (int)` with an unnamed
parameter, node 4 is `U (void)` returning the typedef name `U` of a union; `SetRaw` writes
the raw name of a scalar node. -/
def prototypeEnv : Env :=
  { exampleEnv with
    DictS := fun n => if n = 5 then "U" else exampleEnv.DictS n
    SetRaw := fun c raw =>
      match c with
      | .typeSpec s => .typeSpec { s with Raw := raw }
      | other => other
    Result := fun n =>
      if n = 3 then some intType
      else if n = 4 then some typedefUnion
      else none
    Parameters := fun n =>
      if n = 3 then [⟨0, intType, 8⟩]
      else exampleEnv.Parameters n }

/-- The type of the prototype `int f(int);`. -/
def prototypeType : CCType :=
  .function {} { DirectDeclarator := .suffix 4 (.ident ⟨40, "f", 1⟩) } 3

/-- The declarator of `cb` in `typedef int (*cb)(int);`: its raw specifier is marked
typedef. -/
def cbDeclarator : TypeDeclarator :=
  { RawSpecifier := { IsTypedef := true },
    DirectDeclarator := .suffix 4 (.paren 1 (.ident ⟨42, "cb", 6⟩)) }

/-- The type of `cb` in `typedef int (*cb)(int);`: the raw specifier of the declarator is
marked typedef, and so is the specifier of the type, at the pointer and at the function
below it. -/
def callbackType : CCType :=
  .ptr { IsTypedef := true } cbDeclarator (.function { IsTypedef := true } cbDeclarator 3)

/-- The type of `g` in `U g(void);` where `U` is the typedef name of a union. -/
def unionReturning : CCType :=
  .function {} { DirectDeclarator := .suffix 4 (.ident ⟨41, "g", 1⟩) } 4

/-- The type of `cbs` in `int (*cbs[4])(int);`: an array of 4 pointers to function. -/
def callbackArray : CCType := .array {} {} 4 (.ptr {} {} prototypeType)

/-- The type of `cb1` in `int (*cb1)(int);`: a single pointer to function. -/
def callbackPointer : CCType := .ptr {} {} prototypeType

/-- The declaration `int a[2] = {1, 2};`: a brace enclosed initializer list has no
expression. -/
def braceDeclaration : Declaration :=
  { InitDeclaratorListOpt := some
      [⟨{ Typ := .array {} {} 2 intType,
          DirectDeclarator := .suffix 2 (.ident ⟨32, "a", 3⟩) }, some ⟨none⟩⟩],
    Declarator := none }

/-- Example translator state whose file scope binds the tag identifier 2 to the specifier
of `struct N { ... }` and the tag identifier 6 to a token `M`. -/
def taggedTranslator : Translator :=
  { exampleTranslator .ConstEval with
    fileScope := fun n =>
      if n = 2 then .StructOrUnionSpecifier (some ⟨2, "N", 1⟩)
      else if n = 6 then .Token ⟨6, "M", 2⟩
      else if n = 7 then .StructOrUnionSpecifier none
      else .other }

/-- Example collaborators that decorate names: `blessName` puts an underscore in front. -/
def blessingEnv : Env :=
  { prototypeEnv with
    blessName := fun s => "_" ++ s
    Parameters := fun n =>
      if n = 3 then [⟨4, intType, 8⟩, ⟨0, intType, 9⟩]
      else exampleEnv.Parameters n }

/-! ## Theorems -/

/-! ### identifierOf -/

/-- C10: `identifierOf` returns the (blessed) text of the innermost identifier leaf of the
chain, the empty string when that token is absent; a parenthesised node yields the
identifier of the enclosed declarator, a suffix node that of its operand; on
`void (*name)(int)` the result is the text `name` as rendered by `blessName`. -/
theorem identifierOf_innermost_leaf (env : Env) (dd : DirectDeclarator) :
    identifierOf env dd
        = (if (leafToken dd).Val = 0 then "" else env.blessName (leafToken dd).S)
      ∧ (∀ n inner, identifierOf env (.paren n inner) = identifierOf env inner)
      ∧ (∀ k operand, identifierOf env (.suffix k operand) = identifierOf env operand)
      ∧ (∀ s p, identifierOf env (.ident ⟨0, s, p⟩) = "")
      ∧ identifierOf env callbackDeclarator = env.blessName "name"
      ∧ identifierOf exampleEnv callbackDeclarator = "name" := by
  refine ⟨?_, fun _ _ => rfl, fun _ _ => rfl, fun _ _ => rfl, rfl, rfl⟩
  induction dd with
  | ident tok => rfl
  | paren n inner ih => simpa [identifierOf, leafToken] using ih
  | suffix k operand ih => simpa [identifierOf, leafToken] using ih

/-! ### enumSpec -/

/-- A relation that holds along two lists may use membership in the second list. -/
theorem forall₂_imp_of_mem {α β : Type} {R Q : α → β → Prop} :
    ∀ {l₁ : List α} {l₂ : List β}, List.Forall₂ R l₁ l₂ →
      (∀ a b, b ∈ l₂ → R a b → Q a b) → List.Forall₂ Q l₁ l₂ := by
  intro l₁ l₂ h
  induction h with
  | nil => intro _; exact List.Forall₂.nil
  | cons hab _ ih =>
    intro hq
    exact List.Forall₂.cons (hq _ _ (List.mem_cons_self _ _) hab)
      (ih (fun a b hb hr => hq a b (List.mem_cons_of_mem _ hb) hr))

/-- The loop of `enumSpec` on enumerators that all carry a value: it succeeds, appends one
member per enumerator in order, and leaves every translator field but the two constant
maps alone. -/
theorem enumSpecLoop_ok (env : Env) :
    ∀ (ens : List Enumerator) (spec : CEnumSpec) (t : Translator),
      (∀ en ∈ ens, en.Value ≠ none) →
      ∃ spec1 t1 added, enumSpecLoop env spec t ens = .ok (spec1, t1)
        ∧ spec1.Members = spec.Members ++ added
        ∧ List.Forall₂ (memberOfEnumerator env (t.constRules .ConstEnum)) added ens
        ∧ spec1.Tag = spec.Tag ∧ spec1.Pointers = spec.Pointers
        ∧ spec1.OuterArr = spec.OuterArr ∧ spec1.InnerArr = spec.InnerArr
        ∧ spec1.Typedef = spec.Typedef
        ∧ t1.constRules = t.constRules ∧ t1.fileScope = t.fileScope
        ∧ t1.declares = t.declares ∧ t1.typedefs = t.typedefs
        ∧ t1.typedefsSet = t.typedefsSet ∧ t1.tagMap = t.tagMap := by
  intro ens
  induction ens with
  | nil => intro spec t _; exact ⟨spec, t, [], rfl, by simp⟩
  | cons en rest ih =>
    intro spec t h
    obtain ⟨v, hv⟩ : ∃ v, en.Value = some v := by
      cases hev : en.Value with
      | none => exact absurd hev (h en (List.mem_cons_self _ _))
      | some v => exact ⟨v, rfl⟩
    have hrest : ∀ e ∈ rest, e.Value ≠ none := fun e he => h e (List.mem_cons_of_mem _ he)
    simp only [enumSpecLoop, hv]
    obtain ⟨spec1, t1, added, heq, hm, hf, h1, h2, h3, h4, h5, h6, h7, h8, h9, h10, h11⟩ :=
      ih _ _ hrest
    refine ⟨spec1, t1, _ :: added, heq, hm.trans (List.append_assoc _ _ _),
      List.Forall₂.cons ?_ hf, h1, h2, h3, h4, h5, h6, h7, h8, h9, h10, h11⟩
    cases hr : t.constRules .ConstEnum <;>
      simp [hr, hv, memberOfEnumerator, policyValue, policyExpression]

/-- The loop of `enumSpec` panics as soon as an enumerator has no value. -/
theorem enumSpecLoop_error (env : Env) :
    ∀ (ens : List Enumerator) (spec : CEnumSpec) (t : Translator),
      (∃ en ∈ ens, en.Value = none) → enumSpecLoop env spec t ens = .error .enumValueNil := by
  intro ens
  induction ens with
  | nil => intro _ _ h; obtain ⟨_, hmem, _⟩ := h; cases hmem
  | cons en rest ih =>
    intro spec t h
    cases hv : en.Value with
    | none => simp only [enumSpecLoop, hv]
    | some v =>
      simp only [enumSpecLoop, hv]
      apply ih
      obtain ⟨e, hmem, he⟩ := h
      rcases List.mem_cons.mp hmem with rfl | hmem
      · rw [hv] at he; cases he
      · exact ⟨e, hmem, he⟩

/-- The loop of `enumSpec` either succeeds or fails with the enum panic, and succeeds
exactly when every enumerator carries a value. -/
theorem enumSpecLoop_cases (env : Env) (ens : List Enumerator) (spec : CEnumSpec)
    (t : Translator) :
    ((∀ en ∈ ens, en.Value ≠ none) ∧ ∃ r, enumSpecLoop env spec t ens = .ok r)
      ∨ ((∃ en ∈ ens, en.Value = none)
          ∧ enumSpecLoop env spec t ens = .error .enumValueNil) := by
  by_cases h : ∃ en ∈ ens, en.Value = none
  · exact Or.inr ⟨h, enumSpecLoop_error env ens spec t h⟩
  · have hall : ∀ en ∈ ens, en.Value ≠ none := fun en hen hv => h ⟨en, hen, hv⟩
    obtain ⟨spec1, t1, _, heq, _⟩ := enumSpecLoop_ok env ens spec t hall
    exact Or.inl ⟨hall, (spec1, t1), heq⟩

/-- The loop of `enumSpec` writes the constant maps only under names of its enumerators. -/
theorem enumSpecLoop_frame (env : Env) :
    ∀ (ens : List Enumerator) (spec : CEnumSpec) (t : Translator) (spec1 : CEnumSpec)
      (t1 : Translator), enumSpecLoop env spec t ens = .ok (spec1, t1) →
      ∀ k, k ∉ ens.map (fun en => env.blessName en.DefTok.S) →
        t1.valueMap k = t.valueMap k ∧ t1.exprMap k = t.exprMap k := by
  intro ens
  induction ens with
  | nil =>
    intro spec t spec1 t1 h k _
    simp only [enumSpecLoop, Except.ok.injEq, Prod.mk.injEq] at h
    obtain ⟨_, rfl⟩ := h
    exact ⟨rfl, rfl⟩
  | cons en rest ih =>
    intro spec t spec1 t1 h k hk
    cases hv : en.Value with
    | none => simp [enumSpecLoop, hv] at h
    | some v =>
      simp only [enumSpecLoop, hv] at h
      simp only [List.map_cons, List.mem_cons, not_or] at hk
      obtain ⟨h1, h2⟩ := ih _ _ _ _ h k hk.2
      rw [h1, h2]
      cases hr : t.constRules .ConstEnum <;> simp [hr, mapSet, hk.1]

/-- After the loop of `enumSpec`, with distinct names, both constant maps hold the entry of
every enumerator. -/
theorem enumSpecLoop_lookup (env : Env) :
    ∀ (ens : List Enumerator) (spec : CEnumSpec) (t : Translator) (spec1 : CEnumSpec)
      (t1 : Translator), enumSpecLoop env spec t ens = .ok (spec1, t1) →
      (ens.map (fun en => env.blessName en.DefTok.S)).Nodup →
      ∀ en ∈ ens, t1.valueMap (env.blessName en.DefTok.S) = some en.Value
        ∧ t1.exprMap (env.blessName en.DefTok.S)
            = some (policyExpression (t.constRules .ConstEnum) (env.blessName en.DefTok.S)) := by
  intro ens
  induction ens with
  | nil => intro _ _ _ _ _ _ en hen; cases hen
  | cons e rest ih =>
    intro spec t spec1 t1 h hnd en hen
    cases hv : e.Value with
    | none => simp [enumSpecLoop, hv] at h
    | some v =>
      simp only [enumSpecLoop, hv] at h
      simp only [List.map_cons, List.nodup_cons] at hnd
      rcases List.mem_cons.mp hen with rfl | hmem
      · obtain ⟨h1, h2⟩ := enumSpecLoop_frame env rest _ _ _ _ h _ hnd.1
        rw [h1, h2]
        cases hr : t.constRules .ConstEnum <;> simp [hr, hv, mapSet, policyExpression]
      · exact ih _ _ _ _ h hnd.2 en hmem

/-- Two lists related elementwise by an equation of projections have equal projections. -/
theorem map_eq_map_of_forall₂ {α β γ : Type} {R : α → β → Prop} (f : α → γ) (g : β → γ)
    (hR : ∀ a b, R a b → f a = g b) :
    ∀ {l₁ : List α} {l₂ : List β}, List.Forall₂ R l₁ l₂ → l₁.map f = l₂.map g := by
  intro l₁ l₂ h
  induction h with
  | nil => rfl
  | cons hab _ ih => simp [hR _ _ hab, ih]

/-- Every element of the first of two elementwise related lists has a partner. -/
theorem exists_of_forall₂_left {α β : Type} {R : α → β → Prop} :
    ∀ {l₁ : List α} {l₂ : List β}, List.Forall₂ R l₁ l₂ → ∀ a ∈ l₁, ∃ b ∈ l₂, R a b := by
  intro l₁ l₂ h
  induction h with
  | nil => intro a ha; cases ha
  | cons hab _ ih =>
    intro a ha
    rcases List.mem_cons.mp ha with rfl | ha
    · exact ⟨_, List.mem_cons_self _ _, hab⟩
    · obtain ⟨b, hb, hr⟩ := ih a ha
      exact ⟨b, List.mem_cons_of_mem _ hb, hr⟩

/-- C5: on an enum whose enumerators all carry a resolved value, `enumSpec` returns an
Enum with one member per enumerator, in declaration order and with the enumerator names;
under the Value policy each member holds the resolved value and an empty expression, under
the alias and expand policies each member holds no value and the expression `C.<name>`. -/
theorem enumSpec_members_in_order (env : Env) (t : Translator) (base : CTypeSpec)
    (typ : CCType) (h : ∀ en ∈ typ.EnumeratorList, en.Value ≠ none) :
    ∃ spec t1, enumSpec env t base typ = .ok (spec, t1)
      ∧ spec.Members.length = typ.EnumeratorList.length
      ∧ spec.Members.map (fun m => m.Name)
          = typ.EnumeratorList.map (fun en => env.blessName en.DefTok.S)
      ∧ (t.constRules .ConstEnum = .ConstEval →
          spec.Members.map (fun m => m.Value) = typ.EnumeratorList.map (fun en => en.Value)
            ∧ ∀ m ∈ spec.Members, m.Expression = "")
      ∧ (t.constRules .ConstEnum = .ConstCGOAlias ∨ t.constRules .ConstEnum = .ConstExpand →
          ∀ m ∈ spec.Members, m.Value = none ∧ m.Expression = "C." ++ m.Name) := by
  obtain ⟨spec, t1, added, heq, hm, hf, _⟩ :=
    enumSpecLoop_ok env typ.EnumeratorList
      { Tag := env.blessName (env.DictS typ.Tag), Pointers := base.Pointers,
        OuterArr := base.OuterArr, InnerArr := base.InnerArr } t h
  simp only [List.nil_append] at hm
  rw [← hm] at hf
  refine ⟨spec, t1, heq, hf.length_eq, ?_, ?_, ?_⟩
  · exact map_eq_map_of_forall₂ _ _ (fun _ _ hr => hr.1) hf
  · intro hrule
    rw [hrule] at hf
    refine ⟨map_eq_map_of_forall₂ _ _ (fun _ _ hr => hr.2.1) hf, ?_⟩
    intro m hmem
    obtain ⟨en, _, hr⟩ := exists_of_forall₂_left hf m hmem
    exact hr.2.2
  · intro hrule m hmem
    obtain ⟨en, _, hn, hval, hex⟩ := exists_of_forall₂_left hf m hmem
    rcases hrule with hrule | hrule <;> rw [hrule] at hval hex <;>
      exact ⟨hval, by rw [hex, hn]; rfl⟩

/-- Witness for C5: `enum Color { RED, GREEN=5, BLUE }` under the Value policy lowers to the
members RED=0, GREEN=5, BLUE=6. -/
theorem enumSpec_members_in_order_witness :
    (∀ en ∈ colorEnum.EnumeratorList, en.Value ≠ none)
      ∧ (∃ spec t1, enumSpec exampleEnv (exampleTranslator .ConstEval) {} colorEnum
            = .ok (spec, t1)
          ∧ spec.Members.length = 3
          ∧ spec.Members.map (fun m => m.Name) = ["RED", "GREEN", "BLUE"]
          ∧ spec.Members.map (fun m => m.Value) = [some (.int 0), some (.int 5), some (.int 6)]
          ∧ ∀ m ∈ spec.Members, m.Expression = "") := by
  have hall : ∀ en ∈ colorEnum.EnumeratorList, en.Value ≠ none := by decide
  obtain ⟨spec, t1, heq, hlen, hnames, hval, _⟩ :=
    enumSpec_members_in_order exampleEnv (exampleTranslator .ConstEval) {} colorEnum hall
  exact ⟨hall, spec, t1, heq, hlen, hnames, (hval rfl).1, (hval rfl).2⟩

/-- C6 (counterexample): under the alias policy the Enum member GREEN of
`enum Color { RED, GREEN=5, BLUE }` stores no Value, while the constant value map holds the
resolved value 5 under its name; the names are pairwise distinct. -/
theorem enumSpec_alias_member_value_differs :
    (colorEnum.EnumeratorList.map (fun en => exampleEnv.blessName en.DefTok.S)).Nodup
      ∧ ∃ spec t1, enumSpec exampleEnv (exampleTranslator .ConstCGOAlias) {} colorEnum
            = .ok (spec, t1)
          ∧ spec.Members.map (fun m => (m.Name, m.Value))
              = [("RED", none), ("GREEN", none), ("BLUE", none)]
          ∧ t1.valueMap "GREEN" = some (some (.int 5)) := by
  refine ⟨by decide, _, _, rfl, by decide, by decide⟩

/-- C6 (amended): after `enumSpec` succeeds on an enum with pairwise distinct member names,
under every policy, the members and the enumerators correspond in order and for each pair
the member name is a key of both constant maps, the value map holds the resolved value of
the enumerator, the expression map holds the Expression of the member, and the Value of
the member equals the resolved value under the Value policy and is unset under the alias
and expand policies. -/
theorem enumSpec_registers_constants (env : Env) (t : Translator) (base : CTypeSpec)
    (typ : CCType) (spec : CEnumSpec) (t1 : Translator)
    (hok : enumSpec env t base typ = .ok (spec, t1))
    (hnd : (typ.EnumeratorList.map (fun en => env.blessName en.DefTok.S)).Nodup) :
    List.Forall₂ (fun m en =>
        m.Name = env.blessName en.DefTok.S
          ∧ t1.valueMap m.Name = some en.Value
          ∧ t1.exprMap m.Name = some m.Expression
          ∧ (t.constRules .ConstEnum = .ConstEval → m.Value = en.Value)
          ∧ (t.constRules .ConstEnum ≠ .ConstEval → m.Value = none))
      spec.Members typ.EnumeratorList := by
  have hall : ∀ en ∈ typ.EnumeratorList, en.Value ≠ none := by
    rcases enumSpecLoop_cases env typ.EnumeratorList
      { Tag := env.blessName (env.DictS typ.Tag), Pointers := base.Pointers,
        OuterArr := base.OuterArr, InnerArr := base.InnerArr } t with h | h
    · exact h.1
    · have herr := h.2
      unfold enumSpec at hok
      rw [herr] at hok
      cases hok
  obtain ⟨spec', t1', added, heq, hm, hf, _⟩ :=
    enumSpecLoop_ok env typ.EnumeratorList
      { Tag := env.blessName (env.DictS typ.Tag), Pointers := base.Pointers,
        OuterArr := base.OuterArr, InnerArr := base.InnerArr } t hall
  have hlook := enumSpecLoop_lookup env typ.EnumeratorList _ t spec t1 hok hnd
  unfold enumSpec at hok
  rw [heq] at hok
  simp only [Except.ok.injEq, Prod.mk.injEq] at hok
  obtain ⟨rfl, rfl⟩ := hok
  simp only [List.nil_append] at hm
  rw [← hm] at hf
  refine forall₂_imp_of_mem hf ?_
  intro m en hen hr
  obtain ⟨hn, hval, hex⟩ := hr
  obtain ⟨hv, he⟩ := hlook en hen
  refine ⟨hn, by rw [hn]; exact hv, by rw [hn, hex]; exact he, ?_, ?_⟩
  · intro hrule; rw [hrule] at hval; exact hval
  · intro hrule
    cases hr : t.constRules .ConstEnum
    · exact absurd hr hrule
    · rw [hr] at hval; exact hval
    · rw [hr] at hval; exact hval

/-- Witness for C6 (amended): `enum Color { RED, GREEN=5, BLUE }` under the alias policy. -/
theorem enumSpec_registers_constants_witness :
    ∃ spec t1, enumSpec exampleEnv (exampleTranslator .ConstCGOAlias) {} colorEnum
          = .ok (spec, t1)
      ∧ List.Forall₂ (fun m en =>
          m.Name = exampleEnv.blessName en.DefTok.S
            ∧ t1.valueMap m.Name = some en.Value
            ∧ t1.exprMap m.Name = some m.Expression
            ∧ ((exampleTranslator .ConstCGOAlias).constRules .ConstEnum = .ConstEval →
                m.Value = en.Value)
            ∧ ((exampleTranslator .ConstCGOAlias).constRules .ConstEnum ≠ .ConstEval →
                m.Value = none))
        spec.Members colorEnum.EnumeratorList :=
  ⟨_, _, rfl, enumSpec_registers_constants exampleEnv (exampleTranslator .ConstCGOAlias) {}
    colorEnum _ _ rfl (by decide)⟩

/-- C7: `enumSpec` fails fatally exactly when some enumerator has no resolved value, the
failure is the enum panic, and a successful call saw a value on every enumerator; the
policy plays no part. -/
theorem enumSpec_fatal_iff_missing_value (env : Env) (t : Translator) (base : CTypeSpec)
    (typ : CCType) :
    ((∃ e, enumSpec env t base typ = .error e) ↔ ∃ en ∈ typ.EnumeratorList, en.Value = none)
      ∧ (∀ e, enumSpec env t base typ = .error e → e = .enumValueNil)
      ∧ (∀ r, enumSpec env t base typ = .ok r → ∀ en ∈ typ.EnumeratorList, en.Value ≠ none) := by
  unfold enumSpec
  rcases enumSpecLoop_cases env typ.EnumeratorList
    { Tag := env.blessName (env.DictS typ.Tag), Pointers := base.Pointers,
      OuterArr := base.OuterArr, InnerArr := base.InnerArr } t with ⟨hall, r, hr⟩ | ⟨hex, herr⟩
  · simp only [hr]
    refine ⟨⟨fun ⟨e, he⟩ => (by cases he), fun ⟨en, hen, hv⟩ => absurd hv (hall en hen)⟩, ?_, ?_⟩
    · intro e he; cases he
    · intro _ _; exact hall
  · simp only [herr]
    refine ⟨⟨fun _ => hex, fun _ => ⟨_, rfl⟩⟩, ?_, ?_⟩
    · intro e he; cases he; rfl
    · intro r hr; cases hr

/-! ### The three stripping loops -/

theorem stripOuterArr_arraysOver :
    ∀ (outer : List (Specifier × TypeDeclarator × Nat)) (typ : CCType) (spec : CTypeSpec),
      stripOuterArr (arraysOver outer typ) spec
        = stripOuterArr typ { spec with OuterArr := spec.OuterArr ++ boundsOf outer } := by
  intro outer
  induction outer with
  | nil => intro typ spec; simp [arraysOver, boundsOf]
  | cons l rest ih =>
    intro typ spec
    obtain ⟨s, d, n⟩ := l
    simp only [arraysOver, stripOuterArr]
    rw [ih]
    simp [CTypeSpec.AddOuterArr, boundsOf]

theorem stripInnerArr_arraysOver :
    ∀ (inner : List (Specifier × TypeDeclarator × Nat)) (typ : CCType) (spec : CTypeSpec),
      stripInnerArr (arraysOver inner typ) spec
        = stripInnerArr typ { spec with InnerArr := spec.InnerArr ++ boundsOf inner } := by
  intro inner
  induction inner with
  | nil => intro typ spec; simp [arraysOver, boundsOf]
  | cons l rest ih =>
    intro typ spec
    obtain ⟨s, d, n⟩ := l
    simp only [arraysOver, stripInnerArr]
    rw [ih]
    simp [CTypeSpec.AddInnerArr, boundsOf]

theorem stripPointers_pointersOver :
    ∀ (ptrs : List (Specifier × TypeDeclarator)) (typ : CCType) (spec : CTypeSpec),
      stripPointers (pointersOver ptrs typ) spec
        = stripPointers typ { spec with Pointers := spec.Pointers + ptrs.length } := by
  intro ptrs
  induction ptrs with
  | nil => intro typ spec; simp [pointersOver]
  | cons l rest ih =>
    intro typ spec
    obtain ⟨s, d⟩ := l
    simp only [pointersOver, stripPointers]
    rw [ih]
    have harith : spec.Pointers + 1 + rest.length = spec.Pointers + (rest.length + 1) := by omega
    simp [harith]

theorem stripOuterArr_of_not_array (typ : CCType) (spec : CTypeSpec)
    (h : typ.Kind ≠ .Array) : stripOuterArr typ spec = (typ, spec) := by
  cases typ <;> first | rfl | exact absurd rfl h

theorem stripInnerArr_of_not_array (typ : CCType) (spec : CTypeSpec)
    (h : typ.Kind ≠ .Array) : stripInnerArr typ spec = (typ, spec) := by
  cases typ <;> first | rfl | exact absurd rfl h

theorem stripPointers_of_not_ptr (typ : CCType) (spec : CTypeSpec)
    (h : typ.Kind ≠ .Ptr) : stripPointers typ spec = (typ, spec) := by
  cases typ <;> first | rfl | exact absurd rfl h

/-! ### The aggregate builders -/

/-- The loop of `structSpec` only appends members; the appended members and the final
translator do not depend on the node they are appended to. -/
theorem structSpecLoop_append (env : Env) (lower : Lowering) (deep : Nat) :
    ∀ (ms : List Member) (spec : CStructSpec) (t : Translator) (s1 : CStructSpec)
      (t1 : Translator), structSpecLoop env lower deep spec t ms = .ok (s1, t1) →
      ∃ added, added.length = ms.length
        ∧ s1 = { spec with Members := spec.Members ++ added }
        ∧ ∀ spec2 : CStructSpec, structSpecLoop env lower deep spec2 t ms
            = .ok ({ spec2 with Members := spec2.Members ++ added }, t1) := by
  intro ms
  induction ms with
  | nil =>
    intro spec t s1 t1 h
    simp only [structSpecLoop, Except.ok.injEq, Prod.mk.injEq] at h
    obtain ⟨rfl, rfl⟩ := h
    exact ⟨[], rfl, by simp, fun spec2 => by simp [structSpecLoop]⟩
  | cons m rest ih =>
    intro spec t s1 t1 h
    simp only [structSpecLoop] at h
    cases hl : lower t m.Typ (deep + 1) false with
    | error e => simp [hl] at h
    | ok r =>
      obtain ⟨ty, t2⟩ := r
      simp only [hl] at h
      obtain ⟨added, hlen, hs1, hall⟩ := ih _ _ _ _ h
      refine ⟨structMember env m ty :: added, by simp [hlen], by rw [hs1]; simp, ?_⟩
      intro spec2
      simp only [structSpecLoop, hl]
      rw [hall]
      simp

/-- Success of `structSpec` does not depend on the decorations passed in, and the returned
node carries exactly those decorations. -/
theorem structSpec_decorations (env : Env) (lower : Lowering) (t : Translator)
    (base base2 : CTypeSpec) (typ : CCType) (deep : Nat)
    (h : ∃ r, structSpec env lower t base typ deep = .ok r) :
    ∃ s t1, structSpec env lower t base2 typ deep = .ok (s, t1)
      ∧ s.Pointers = base2.Pointers ∧ s.OuterArr = base2.OuterArr
      ∧ s.InnerArr = base2.InnerArr := by
  unfold structSpec at h ⊢
  by_cases hd : deep > maxDeepLevel
  · simp only [hd, if_true]
    exact ⟨_, _, rfl, rfl, rfl, rfl⟩
  · simp only [hd, if_false] at h ⊢
    obtain ⟨⟨s1, t1⟩, hr⟩ := h
    obtain ⟨added, _, _, hall⟩ := structSpecLoop_append env lower deep _ _ _ _ _ hr
    exact ⟨_, _, hall _, rfl, rfl, rfl⟩

/-- On a scalar, enum, struct or union type, success of the kind switch of `typeSpec` does
not depend on the accumulated decorations, and the returned node carries them. -/
theorem typeSpecSwitch_decorations (env : Env) (lower : Lowering) (t : Translator)
    (spec spec2 : CTypeSpec) (typ : CCType) (deep : Nat) (isRet : Bool)
    (hbase : typ.isBase = true)
    (h : ∃ r, typeSpecSwitch env lower t spec typ deep isRet = .ok r) :
    ∃ node t1, typeSpecSwitch env lower t spec2 typ deep isRet = .ok (node, t1)
      ∧ node.Pointers = spec2.Pointers ∧ node.OuterArr = spec2.OuterArr
      ∧ node.InnerArr = spec2.InnerArr := by
  cases typ with
  | scalar kind s d =>
    cases kind <;>
      first
        | exact ⟨_, _, rfl, rfl, rfl, rfl⟩
        | (obtain ⟨r, hr⟩ := h; simp [typeSpecSwitch, scalarCase] at hr)
  | ptr s d e => simp [CCType.isBase] at hbase
  | array s d n e => simp [CCType.isBase] at hbase
  | function s d n => simp [CCType.isBase] at hbase
  | union s d tag node => exact ⟨_, _, rfl, rfl, rfl, rfl⟩
  | enum s d tag ens =>
    have hall : ∀ en ∈ ens, en.Value ≠ none := by
      rcases enumSpecLoop_cases env ens
        { Tag := env.blessName (env.DictS tag), Pointers := spec.Pointers,
          OuterArr := spec.OuterArr, InnerArr := spec.InnerArr } t with hc | hc
      · exact hc.1
      · obtain ⟨r, hr⟩ := h
        have herr := hc.2
        simp [typeSpecSwitch, enumSpec, CCType.EnumeratorList, CCType.Tag, herr] at hr
    obtain ⟨s1, t1, _, heq, _, _, _, hp, ho, hi, _⟩ :=
      enumSpecLoop_ok env ens
        { Tag := env.blessName (env.DictS tag), Pointers := spec2.Pointers,
          OuterArr := spec2.OuterArr, InnerArr := spec2.InnerArr } t hall
    refine ⟨.enumSpec (if !isRet then
        { s1 with Typedef := typedefNameOf env (.enum s d tag ens) } else s1), t1, ?_, ?_⟩
    · simp only [typeSpecSwitch, enumSpec, CCType.EnumeratorList, CCType.Tag, heq]
    · cases isRet <;> exact ⟨hp, ho, hi⟩
  | struct s d tag node =>
    have hs : ∃ r, structSpec env lower t spec (.struct s d tag node) (deep + 1) = .ok r := by
      obtain ⟨r, hr⟩ := h
      simp only [typeSpecSwitch] at hr
      cases hsp : structSpec env lower t spec (.struct s d tag node) (deep + 1) with
      | error e => simp [hsp] at hr
      | ok r2 => exact ⟨r2, rfl⟩
    obtain ⟨s1, t1, heq, hp, ho, hi⟩ :=
      structSpec_decorations env lower t spec spec2 _ (deep + 1) hs
    refine ⟨.structSpec (if !isRet then
        { s1 with Typedef := typedefNameOf env (.struct s d tag node) } else s1), t1, ?_, ?_⟩
    · simp only [typeSpecSwitch, heq]
    · cases isRet <;> exact ⟨hp, ho, hi⟩

/-! ### typeSpec: decorations -/

theorem isBase_kind (typ : CCType) (h : typ.isBase = true) :
    typ.Kind ≠ .Array ∧ typ.Kind ≠ .Ptr := by
  cases typ with
  | scalar kind s d => cases kind <;> simp [CCType.Kind, ScalarKind.toKind]
  | ptr s d e => simp [CCType.isBase] at h
  | array s d n e => simp [CCType.isBase] at h
  | function s d n => simp [CCType.isBase] at h
  | union s d tag node => simp [CCType.Kind]
  | enum s d tag ens => simp [CCType.Kind]
  | struct s d tag node => simp [CCType.Kind]

theorem arraysOver_kind_ne_ptr (inner : List (Specifier × TypeDeclarator × Nat)) (typ : CCType)
    (h : typ.Kind ≠ .Ptr) : (arraysOver inner typ).Kind ≠ .Ptr := by
  cases inner with
  | nil => exact h
  | cons l rest => obtain ⟨s, d, n⟩ := l; simp [arraysOver, CCType.Kind]

theorem pointersOver_kind_ne_array (ptrs : List (Specifier × TypeDeclarator)) (typ : CCType)
    (h : typ.Kind ≠ .Array) : (pointersOver ptrs typ).Kind ≠ .Array := by
  cases ptrs with
  | nil => exact h
  | cons l rest => obtain ⟨s, d⟩ := l; simp [pointersOver, CCType.Kind]

/-- One unfolding of `typeSpec`: the three loops followed by the kind switch. -/
theorem typeSpec_unfold (env : Env) (t : Translator) (typ : CCType) (deep : Nat)
    (isRet : Bool) :
    typeSpec env t typ deep isRet
      = typeSpecSwitch env (typeSpecFuel env (maxDeepLevel + 1)) t
          (stripLevels typ (typeSpecInit env typ isRet)).2
          (stripLevels typ (typeSpecInit env typ isRet)).1 deep isRet := rfl

/-- The decorations start out empty. -/
theorem typeSpecInit_decorations (env : Env) (typ : CCType) (isRet : Bool) :
    (typeSpecInit env typ isRet).Pointers = 0 ∧ (typeSpecInit env typ isRet).OuterArr = []
      ∧ (typeSpecInit env typ isRet).InnerArr = [] := by
  cases isRet <;> exact ⟨rfl, rfl, rfl⟩

/-- The three loops on a type made of outer arrays, pointers and inner arrays over a
base type, when there is at least one pointer level or no inner array. -/
theorem stripLevels_wrapped (outer : List (Specifier × TypeDeclarator × Nat))
    (ptrs : List (Specifier × TypeDeclarator)) (inner : List (Specifier × TypeDeclarator × Nat))
    (base : CCType) (spec : CTypeSpec) (hbase : base.isBase = true)
    (hshape : ptrs ≠ [] ∨ inner = []) :
    stripLevels (arraysOver outer (pointersOver ptrs (arraysOver inner base))) spec
      = (base, { spec with OuterArr := spec.OuterArr ++ boundsOf outer,
                           Pointers := spec.Pointers + ptrs.length,
                           InnerArr := spec.InnerArr ++ boundsOf inner }) := by
  obtain ⟨hna, hnp⟩ := isBase_kind base hbase
  have hmid : (pointersOver ptrs (arraysOver inner base)).Kind ≠ .Array := by
    cases ptrs with
    | nil =>
      rcases hshape with h | h
      · exact absurd rfl h
      · subst h; exact hna
    | cons l rest => obtain ⟨s, d⟩ := l; simp [pointersOver, CCType.Kind]
  unfold stripLevels
  rw [stripOuterArr_arraysOver, stripOuterArr_of_not_array _ _ hmid]
  simp only
  rw [stripPointers_pointersOver,
    stripPointers_of_not_ptr _ _ (arraysOver_kind_ne_ptr inner base hnp)]
  simp only
  rw [stripInnerArr_arraysOver, stripInnerArr_of_not_array _ _ hna]

/-- The three loops leave a scalar, enum, struct or union type as it is. -/
theorem stripLevels_base (base : CCType) (spec : CTypeSpec) (hbase : base.isBase = true) :
    stripLevels base spec = (base, spec) := by
  obtain ⟨hna, hnp⟩ := isBase_kind base hbase
  unfold stripLevels
  rw [stripOuterArr_of_not_array _ _ hna]
  simp only
  rw [stripPointers_of_not_ptr _ _ hnp]
  simp only
  rw [stripInnerArr_of_not_array _ _ hna]

/-- C1 (amended): for a type made of outer array levels with known bounds, then pointer
levels, then inner array levels with known bounds, over a scalar, enum, struct or union
base that itself lowers without a fatal error, and with at least one pointer level or no
inner array level, `typeSpec` returns a node whose Pointers is the number of pointer levels,
whose OuterArr is the outer bounds and whose InnerArr is the inner bounds, in stripping
order. -/
theorem typeSpec_decorations (env : Env) (t : Translator) (deep : Nat) (isRet : Bool)
    (outer : List (Specifier × TypeDeclarator × Nat)) (ptrs : List (Specifier × TypeDeclarator))
    (inner : List (Specifier × TypeDeclarator × Nat)) (base : CCType)
    (hbase : base.isBase = true) (hshape : ptrs ≠ [] ∨ inner = [])
    (hok : ∃ r, typeSpec env t base deep isRet = .ok r) :
    ∃ node t1,
      typeSpec env t (arraysOver outer (pointersOver ptrs (arraysOver inner base))) deep isRet
          = .ok (node, t1)
        ∧ node.Pointers = ptrs.length ∧ node.OuterArr = boundsOf outer
        ∧ node.InnerArr = boundsOf inner := by
  rw [typeSpec_unfold, stripLevels_base _ _ hbase] at hok
  rw [typeSpec_unfold, stripLevels_wrapped _ _ _ _ _ hbase hshape]
  obtain ⟨h0p, h0o, h0i⟩ := typeSpecInit_decorations env
    (arraysOver outer (pointersOver ptrs (arraysOver inner base))) isRet
  obtain ⟨node, t1, heq, hp, ho, hi⟩ :=
    typeSpecSwitch_decorations env (typeSpecFuel env (maxDeepLevel + 1)) t _
      { typeSpecInit env (arraysOver outer (pointersOver ptrs (arraysOver inner base))) isRet
        with
        OuterArr := (typeSpecInit env
          (arraysOver outer (pointersOver ptrs (arraysOver inner base))) isRet).OuterArr
            ++ boundsOf outer,
        Pointers := (typeSpecInit env
          (arraysOver outer (pointersOver ptrs (arraysOver inner base))) isRet).Pointers
            + ptrs.length,
        InnerArr := (typeSpecInit env
          (arraysOver outer (pointersOver ptrs (arraysOver inner base))) isRet).InnerArr
            ++ boundsOf inner }
      base deep isRet hbase hok
  refine ⟨node, t1, heq, ?_, ?_, ?_⟩
  · rw [hp]; simp [h0p]
  · rw [ho]; simp [h0o]
  · rw [hi]; simp [h0i]

/-- C1 (counterexample): `int x[4]`, read as no outer array level, no pointer level and
one inner array level of bound 4 over `int`, lowers to a node whose OuterArr is `[4]` and
whose InnerArr is empty; and a pointer to an enum whose enumerator has no resolved value
makes `typeSpec` fail instead of returning a node. -/
theorem typeSpec_inner_array_without_pointer :
    ∃ node t1,
      typeSpec exampleEnv (exampleTranslator .ConstEval)
          (arraysOver [] (pointersOver [] (arraysOver [({}, {}, 4)] intType))) 0 false
        = .ok (node, t1)
      ∧ node.Pointers = 0 ∧ node.OuterArr = [4] ∧ node.InnerArr = []
      ∧ node.InnerArr ≠ boundsOf [(({} : Specifier), ({} : TypeDeclarator), 4)]
      ∧ typeSpec exampleEnv (exampleTranslator .ConstEval)
          (arraysOver [] (pointersOver [({}, {})] (arraysOver [] valuelessEnum))) 0 false
        = .error .enumValueNil :=
  ⟨_, _, rfl, rfl, rfl, rfl, by decide, rfl⟩

/-- Witness for C1 (amended): `int (*p)[4]` gives Pointers 1, InnerArr `[4]` and no
OuterArr; `int *p[4]` gives Pointers 1, OuterArr `[4]` and no InnerArr. -/
theorem typeSpec_decorations_witness :
    (∃ node t1,
      typeSpec exampleEnv (exampleTranslator .ConstEval)
          (arraysOver [] (pointersOver [({}, {})] (arraysOver [({}, {}, 4)] intType))) 0 false
        = .ok (node, t1)
      ∧ node.Pointers = 1 ∧ node.OuterArr = [] ∧ node.InnerArr = [4])
    ∧ (∃ node t1,
      typeSpec exampleEnv (exampleTranslator .ConstEval)
          (arraysOver [({}, {}, 4)] (pointersOver [({}, {})] (arraysOver [] intType))) 0 false
        = .ok (node, t1)
      ∧ node.Pointers = 1 ∧ node.OuterArr = [4] ∧ node.InnerArr = []) :=
  ⟨typeSpec_decorations exampleEnv (exampleTranslator .ConstEval) 0 false []
      [({}, {})] [({}, {}, 4)] intType rfl (Or.inl (by simp)) ⟨_, rfl⟩,
   typeSpec_decorations exampleEnv (exampleTranslator .ConstEval) 0 false [({}, {}, 4)]
      [({}, {})] [] intType rfl (Or.inl (by simp)) ⟨_, rfl⟩⟩

/-! ### Termination of typeSpec -/

/-- The loop of `structSpec` consults the recursive entry only at depth `deep + 1`,
outside return position. -/
theorem structSpecLoop_congr (env : Env) (lower lower2 : Lowering) (deep : Nat)
    (h : ∀ t ty, lower t ty (deep + 1) false = lower2 t ty (deep + 1) false) :
    ∀ (ms : List Member) (spec : CStructSpec) (t : Translator),
      structSpecLoop env lower deep spec t ms = structSpecLoop env lower2 deep spec t ms := by
  intro ms
  induction ms with
  | nil => intro spec t; rfl
  | cons m rest ih =>
    intro spec t
    simp only [structSpecLoop, h]
    cases lower2 t m.Typ (deep + 1) false with
    | error e => rfl
    | ok r => exact ih _ _

/-- The loop of `functionSpec` consults the recursive entry only at depth `deep + 1`,
outside return position. -/
theorem functionSpecLoop_congr (env : Env) (lower lower2 : Lowering) (deep : Nat)
    (h : ∀ t ty, lower t ty (deep + 1) false = lower2 t ty (deep + 1) false) :
    ∀ (ps : List Parameter) (spec : CFunctionSpec) (t : Translator),
      functionSpecLoop env lower deep spec t ps = functionSpecLoop env lower2 deep spec t ps := by
  intro ps
  induction ps with
  | nil => intro spec t; rfl
  | cons p rest ih =>
    intro spec t
    simp only [functionSpecLoop, h]
    cases lower2 t p.Typ (deep + 1) false with
    | error e => rfl
    | ok r => exact ih _ _

/-- `structSpec` consults the recursive entry only at depth `deep + 1`, and not at all
beyond the depth cap. -/
theorem structSpec_congr (env : Env) (lower lower2 : Lowering) (t : Translator)
    (base : CTypeSpec) (typ : CCType) (deep : Nat)
    (h : deep ≤ maxDeepLevel → ∀ t ty r, lower t ty (deep + 1) r = lower2 t ty (deep + 1) r) :
    structSpec env lower t base typ deep = structSpec env lower2 t base typ deep := by
  unfold structSpec
  by_cases hd : deep > maxDeepLevel
  · simp only [hd, if_true]
  · simp only [hd, if_false]
    exact structSpecLoop_congr env lower lower2 deep
      (fun t ty => h (Nat.le_of_not_gt hd) t ty false) _ _ _

/-- `functionSpec` consults the recursive entry only at depth `deep + 1`, and not at all
beyond the depth cap. -/
theorem functionSpec_congr (env : Env) (lower lower2 : Lowering) (t : Translator)
    (base : CTypeSpec) (typ : CCType) (deep : Nat)
    (h : deep ≤ maxDeepLevel → ∀ t ty r, lower t ty (deep + 1) r = lower2 t ty (deep + 1) r) :
    functionSpec env lower t base typ deep = functionSpec env lower2 t base typ deep := by
  unfold functionSpec
  by_cases hd : deep > maxDeepLevel
  · simp only [hd, if_true]
  · simp only [hd, if_false]
    have hle := Nat.le_of_not_gt hd
    have hret : ∀ spec, functionSpecReturn env lower deep spec t typ
        = functionSpecReturn env lower2 deep spec t typ := by
      intro spec
      unfold functionSpecReturn
      cases resultOf env typ with
      | none => rfl
      | some ret => simp only [h hle]
    rw [hret]
    cases functionSpecReturn env lower2 deep
      { Raw := identifierOf env typ.Declarator.DirectDeclarator, Pointers := base.Pointers }
      t typ with
    | error e => rfl
    | ok r =>
      exact functionSpecLoop_congr env lower lower2 deep (fun t ty => h hle t ty false) _ _ _

/-- The kind switch of `typeSpec` consults the recursive entry only at depth `deep + 2`,
and not at all when `deep + 1` is beyond the depth cap. -/
theorem typeSpecSwitch_congr (env : Env) (lower lower2 : Lowering) (t : Translator)
    (spec : CTypeSpec) (typ : CCType) (deep : Nat) (isRet : Bool)
    (h : deep + 1 ≤ maxDeepLevel →
      ∀ t ty r, lower t ty (deep + 2) r = lower2 t ty (deep + 2) r) :
    typeSpecSwitch env lower t spec typ deep isRet
      = typeSpecSwitch env lower2 t spec typ deep isRet := by
  cases typ with
  | struct s d tag node =>
    simp only [typeSpecSwitch, structSpec_congr env lower lower2 t spec _ (deep + 1) h]
  | function s d node =>
    simp only [typeSpecSwitch, functionSpec_congr env lower lower2 t spec _ (deep + 1) h]
  | _ => rfl

/-- The loop of `structSpec` does not run out of fuel when the recursive entry does not. -/
theorem structSpecLoop_fuel (env : Env) (lower : Lowering) (deep : Nat)
    (h : ∀ t ty, lower t ty (deep + 1) false ≠ .error .outOfFuel) :
    ∀ (ms : List Member) (spec : CStructSpec) (t : Translator),
      structSpecLoop env lower deep spec t ms ≠ .error .outOfFuel := by
  intro ms
  induction ms with
  | nil => intro spec t hc; cases hc
  | cons m rest ih =>
    intro spec t
    simp only [structSpecLoop]
    cases hl : lower t m.Typ (deep + 1) false with
    | error e =>
      intro hc
      simp only [Except.error.injEq] at hc
      exact h t m.Typ (by rw [hl, hc])
    | ok r => exact ih _ _

/-- The loop of `functionSpec` does not run out of fuel when the recursive entry does not. -/
theorem functionSpecLoop_fuel (env : Env) (lower : Lowering) (deep : Nat)
    (h : ∀ t ty, lower t ty (deep + 1) false ≠ .error .outOfFuel) :
    ∀ (ps : List Parameter) (spec : CFunctionSpec) (t : Translator),
      functionSpecLoop env lower deep spec t ps ≠ .error .outOfFuel := by
  intro ps
  induction ps with
  | nil => intro spec t hc; cases hc
  | cons p rest ih =>
    intro spec t
    simp only [functionSpecLoop]
    cases hl : lower t p.Typ (deep + 1) false with
    | error e =>
      intro hc
      simp only [Except.error.injEq] at hc
      exact h t p.Typ (by rw [hl, hc])
    | ok r => exact ih _ _

/-- The kind switch of `typeSpec` does not run out of fuel when the recursive entry does
not at depth `deep + 2`. -/
theorem typeSpecSwitch_fuel (env : Env) (lower : Lowering) (t : Translator)
    (spec : CTypeSpec) (typ : CCType) (deep : Nat) (isRet : Bool)
    (h : deep + 1 ≤ maxDeepLevel → ∀ t ty r, lower t ty (deep + 2) r ≠ .error .outOfFuel) :
    typeSpecSwitch env lower t spec typ deep isRet ≠ .error .outOfFuel := by
  cases typ with
  | scalar kind s d =>
    simp only [typeSpecSwitch]
    cases scalarCase spec kind <;> simp
  | ptr s d e => simp [typeSpecSwitch]
  | array s d n e => simp [typeSpecSwitch]
  | union s d tag node => simp [typeSpecSwitch]
  | enum s d tag ens =>
    simp only [typeSpecSwitch, enumSpec]
    rcases enumSpecLoop_cases env (CCType.enum s d tag ens).EnumeratorList
      { Tag := env.blessName (env.DictS (CCType.enum s d tag ens).Tag),
        Pointers := spec.Pointers, OuterArr := spec.OuterArr, InnerArr := spec.InnerArr } t
      with ⟨_, r, hr⟩ | ⟨_, herr⟩
    · rw [hr]; simp
    · rw [herr]; simp
  | struct s d tag node =>
    simp only [typeSpecSwitch]
    cases hs : structSpec env lower t spec (.struct s d tag node) (deep + 1) with
    | ok r => simp
    | error e =>
      intro hc
      simp only [Except.error.injEq] at hc
      subst hc
      unfold structSpec at hs
      by_cases hd : deep + 1 > maxDeepLevel
      · simp [hd] at hs
      · simp only [hd, if_false] at hs
        exact structSpecLoop_fuel env lower (deep + 1)
          (fun t ty => h (Nat.le_of_not_gt hd) t ty false) _ _ _ hs
  | function s d node =>
    simp only [typeSpecSwitch]
    cases hs : functionSpec env lower t spec (.function s d node) (deep + 1) with
    | ok r =>
      obtain ⟨fs, t2⟩ := r
      simp only
      split <;> simp
    | error e =>
      intro hc
      simp only [Except.error.injEq] at hc
      subst hc
      unfold functionSpec at hs
      by_cases hd : deep + 1 > maxDeepLevel
      · simp [hd] at hs
      · simp only [hd, if_false] at hs
        have hle := Nat.le_of_not_gt hd
        cases hr : functionSpecReturn env lower (deep + 1)
          { Raw := identifierOf env (CCType.function s d node).Declarator.DirectDeclarator,
            Pointers := spec.Pointers } t (.function s d node) with
        | error e2 =>
          rw [hr] at hs
          simp only [Except.error.injEq] at hs
          subst hs
          unfold functionSpecReturn at hr
          cases hres : resultOf env (.function s d node) with
          | none => simp [hres] at hr
          | some ret =>
            simp only [hres] at hr
            by_cases hk : ret.Kind ≠ .Void
            · rw [if_pos hk] at hr
              cases hl : lower t ret (deep + 1 + 1) true with
              | error e3 =>
                rw [hl] at hr
                simp only [Except.error.injEq] at hr
                subst hr
                exact h hle t ret true hl
              | ok r3 => obtain ⟨ty, t3⟩ := r3; rw [hl] at hr; cases hr
            · rw [if_neg hk] at hr; cases hr
        | ok r2 =>
          rw [hr] at hs
          exact functionSpecLoop_fuel env lower (deep + 1)
            (fun t ty => h hle t ty false) _ _ _ hs

/-- With enough fuel for the depth, `typeSpec` does not run out of fuel. -/
theorem typeSpecFuel_fuel (env : Env) :
    ∀ (n deep : Nat) (t : Translator) (typ : CCType) (isRet : Bool),
      1 ≤ n → maxDeepLevel + 2 ≤ 2 * n + deep →
      typeSpecFuel env n t typ deep isRet ≠ .error .outOfFuel := by
  intro n
  induction n with
  | zero => intro deep t typ isRet h; omega
  | succ k ih =>
    intro deep t typ isRet _ h2
    simp only [typeSpecFuel]
    apply typeSpecSwitch_fuel
    intro hd t2 ty r
    simp only [maxDeepLevel] at hd h2
    exact ih (deep + 2) t2 ty r (by omega) (by simp only [maxDeepLevel]; omega)

/-- With enough fuel for the depth, the result of `typeSpec` does not depend on the fuel. -/
theorem typeSpecFuel_stable (env : Env) :
    ∀ (n m deep : Nat) (t : Translator) (typ : CCType) (isRet : Bool),
      1 ≤ n → maxDeepLevel + 2 ≤ 2 * n + deep → 1 ≤ m → maxDeepLevel + 2 ≤ 2 * m + deep →
      typeSpecFuel env n t typ deep isRet = typeSpecFuel env m t typ deep isRet := by
  intro n
  induction n with
  | zero => intro m deep t typ isRet h; omega
  | succ k ih =>
    intro m deep t typ isRet _ h2 hm1 hm2
    obtain ⟨j, rfl⟩ : ∃ j, m = j + 1 := ⟨m - 1, by omega⟩
    simp only [typeSpecFuel]
    apply typeSpecSwitch_congr
    intro hd t2 ty r
    simp only [maxDeepLevel] at hd h2 hm2
    exact ih j (deep + 2) t2 ty r (by omega) (by simp only [maxDeepLevel]; omega) (by omega)
      (by simp only [maxDeepLevel]; omega)

/-- C4: on every type graph and at every starting depth `typeSpec` terminates: any fuel
`n` with `1 ≤ n` and `maxDeepLevel + 2 ≤ 2 * n + deep` is enough, the result is then the
one of `typeSpec` and does not depend on the fuel; `structSpec` and `functionSpec` reach the
recursive entry only at depth `deep + 1`, and beyond `maxDeepLevel` they lower no member,
no parameter and no return type. -/
theorem typeSpecFuel_terminates (env : Env) (t : Translator) (typ : CCType) (deep : Nat)
    (isRet : Bool) (fuel : Nat) (h1 : 1 ≤ fuel) (h2 : maxDeepLevel + 2 ≤ 2 * fuel + deep) :
    typeSpecFuel env fuel t typ deep isRet ≠ .error .outOfFuel
      ∧ typeSpecFuel env fuel t typ deep isRet = typeSpec env t typ deep isRet
      ∧ (∀ (lower lower2 : Lowering) (base : CTypeSpec),
          (∀ t2 ty r, lower t2 ty (deep + 1) r = lower2 t2 ty (deep + 1) r) →
            structSpec env lower t base typ deep = structSpec env lower2 t base typ deep
              ∧ functionSpec env lower t base typ deep
                  = functionSpec env lower2 t base typ deep)
      ∧ (maxDeepLevel < deep → ∀ (lower : Lowering) (base : CTypeSpec),
          (∃ s, structSpec env lower t base typ deep = .ok (s, t) ∧ s.Members = [])
            ∧ (∃ s, functionSpec env lower t base typ deep = .ok (s, t)
                ∧ s.Params = [] ∧ s.Return = none)) := by
  refine ⟨typeSpecFuel_fuel env fuel deep t typ isRet h1 h2, ?_, ?_, ?_⟩
  · exact typeSpecFuel_stable env fuel (maxDeepLevel + 2) deep t typ isRet h1 h2
      (by simp [maxDeepLevel]) (by simp only [maxDeepLevel]; omega)
  · intro lower lower2 base h
    exact ⟨structSpec_congr env lower lower2 t base typ deep (fun _ => h),
      functionSpec_congr env lower lower2 t base typ deep (fun _ => h)⟩
  · intro hd lower base
    have hd2 : deep > maxDeepLevel := hd
    refine ⟨⟨{ Tag := getStructTag env t typ, IsUnion := decide (typ.Kind = .Union),
                Pointers := base.Pointers, OuterArr := base.OuterArr,
                InnerArr := base.InnerArr }, by simp only [structSpec, hd2, if_true], rfl⟩,
      ⟨{ Raw := identifierOf env typ.Declarator.DirectDeclarator, Pointers := base.Pointers },
        by simp only [functionSpec, hd2, if_true], rfl, rfl⟩⟩

/-- Witness for C4: the self-referential `struct N { struct N *next; }` lowered from
depth 0 with fuel 3; with fuel 2 the embedding does run out of fuel there. -/
theorem typeSpecFuel_terminates_witness :
    (1 ≤ 3 ∧ maxDeepLevel + 2 ≤ 2 * 3 + 0)
      ∧ typeSpecFuel exampleEnv 3 (exampleTranslator .ConstEval) selfStruct 0 false
          ≠ .error .outOfFuel
      ∧ typeSpecFuel exampleEnv 3 (exampleTranslator .ConstEval) selfStruct 0 false
          = typeSpec exampleEnv (exampleTranslator .ConstEval) selfStruct 0 false
      ∧ typeSpecFuel exampleEnv 2 (exampleTranslator .ConstEval) selfStruct 0 false
          = .error .outOfFuel :=
  have h := typeSpecFuel_terminates exampleEnv (exampleTranslator .ConstEval) selfStruct 0
    false 3 (by decide) (by decide)
  ⟨⟨by decide, by decide⟩, h.1, h.2.1, rfl⟩

/-! ### Frame of lowering -/

theorem sameOutputs_refl (t : Translator) : t.sameOutputs t := ⟨rfl, rfl, rfl, rfl, rfl⟩

theorem sameOutputs_trans {t t1 t2 : Translator} (h1 : t.sameOutputs t1)
    (h2 : t1.sameOutputs t2) : t.sameOutputs t2 := by
  obtain ⟨a1, a2, a3, a4, a5⟩ := h1
  obtain ⟨b1, b2, b3, b4, b5⟩ := h2
  exact ⟨b1.trans a1, b2.trans a2, b3.trans a3, b4.trans a4, b5.trans a5⟩

theorem enumSpec_sameOutputs (env : Env) (t : Translator) (base : CTypeSpec) (typ : CCType)
    (s : CEnumSpec) (t1 : Translator) (h : enumSpec env t base typ = .ok (s, t1)) :
    t.sameOutputs t1 := by
  unfold enumSpec at h
  rcases enumSpecLoop_cases env typ.EnumeratorList
    { Tag := env.blessName (env.DictS typ.Tag), Pointers := base.Pointers,
      OuterArr := base.OuterArr, InnerArr := base.InnerArr } t with ⟨hall, _⟩ | ⟨_, herr⟩
  · obtain ⟨s2, t2, _, heq, _, _, _, _, _, _, _, h6, h7, h8, h9, h10, _⟩ :=
      enumSpecLoop_ok env typ.EnumeratorList
        { Tag := env.blessName (env.DictS typ.Tag), Pointers := base.Pointers,
          OuterArr := base.OuterArr, InnerArr := base.InnerArr } t hall
    rw [heq] at h
    simp only [Except.ok.injEq, Prod.mk.injEq] at h
    obtain ⟨_, rfl⟩ := h
    exact ⟨h6, h7, h8, h9, h10⟩
  · rw [herr] at h; cases h

theorem structSpecLoop_sameOutputs (env : Env) (lower : Lowering) (deep : Nat)
    (hl : Lowering.keepsOutputs lower) :
    ∀ (ms : List Member) (spec : CStructSpec) (t : Translator) (s1 : CStructSpec)
      (t1 : Translator), structSpecLoop env lower deep spec t ms = .ok (s1, t1) →
      t.sameOutputs t1 := by
  intro ms
  induction ms with
  | nil =>
    intro spec t s1 t1 h
    simp only [structSpecLoop, Except.ok.injEq, Prod.mk.injEq] at h
    obtain ⟨_, rfl⟩ := h
    exact sameOutputs_refl t
  | cons m rest ih =>
    intro spec t s1 t1 h
    simp only [structSpecLoop] at h
    cases hr : lower t m.Typ (deep + 1) false with
    | error e => simp [hr] at h
    | ok r =>
      obtain ⟨ty, t2⟩ := r
      simp only [hr] at h
      exact sameOutputs_trans (hl _ _ _ _ _ _ hr) (ih _ _ _ _ h)

theorem functionSpecLoop_sameOutputs (env : Env) (lower : Lowering) (deep : Nat)
    (hl : Lowering.keepsOutputs lower) :
    ∀ (ps : List Parameter) (spec : CFunctionSpec) (t : Translator) (s1 : CFunctionSpec)
      (t1 : Translator), functionSpecLoop env lower deep spec t ps = .ok (s1, t1) →
      t.sameOutputs t1 := by
  intro ps
  induction ps with
  | nil =>
    intro spec t s1 t1 h
    simp only [functionSpecLoop, Except.ok.injEq, Prod.mk.injEq] at h
    obtain ⟨_, rfl⟩ := h
    exact sameOutputs_refl t
  | cons p rest ih =>
    intro spec t s1 t1 h
    simp only [functionSpecLoop] at h
    cases hr : lower t p.Typ (deep + 1) false with
    | error e => simp [hr] at h
    | ok r =>
      obtain ⟨ty, t2⟩ := r
      simp only [hr] at h
      exact sameOutputs_trans (hl _ _ _ _ _ _ hr) (ih _ _ _ _ h)

theorem structSpec_sameOutputs (env : Env) (lower : Lowering) (hl : Lowering.keepsOutputs lower)
    (t : Translator) (base : CTypeSpec) (typ : CCType) (deep : Nat) (s : CStructSpec)
    (t1 : Translator) (h : structSpec env lower t base typ deep = .ok (s, t1)) :
    t.sameOutputs t1 := by
  unfold structSpec at h
  by_cases hd : deep > maxDeepLevel
  · simp only [hd, if_true, Except.ok.injEq, Prod.mk.injEq] at h
    obtain ⟨_, rfl⟩ := h
    exact sameOutputs_refl t
  · simp only [hd, if_false] at h
    exact structSpecLoop_sameOutputs env lower deep hl _ _ _ _ _ h

theorem functionSpec_sameOutputs (env : Env) (lower : Lowering)
    (hl : Lowering.keepsOutputs lower) (t : Translator) (base : CTypeSpec) (typ : CCType)
    (deep : Nat) (s : CFunctionSpec) (t1 : Translator)
    (h : functionSpec env lower t base typ deep = .ok (s, t1)) : t.sameOutputs t1 := by
  unfold functionSpec at h
  by_cases hd : deep > maxDeepLevel
  · simp only [hd, if_true, Except.ok.injEq, Prod.mk.injEq] at h
    obtain ⟨_, rfl⟩ := h
    exact sameOutputs_refl t
  · simp only [hd, if_false] at h
    cases hr : functionSpecReturn env lower deep
      { Raw := identifierOf env typ.Declarator.DirectDeclarator, Pointers := base.Pointers }
      t typ with
    | error e => simp [hr] at h
    | ok r =>
      obtain ⟨s2, t2⟩ := r
      simp only [hr] at h
      refine sameOutputs_trans ?_ (functionSpecLoop_sameOutputs env lower deep hl _ _ _ _ _ h)
      unfold functionSpecReturn at hr
      cases hres : resultOf env typ with
      | none =>
        simp only [hres, Except.ok.injEq, Prod.mk.injEq] at hr
        obtain ⟨_, rfl⟩ := hr
        exact sameOutputs_refl t
      | some ret =>
        simp only [hres] at hr
        by_cases hk : ret.Kind ≠ .Void
        · rw [if_pos hk] at hr
          cases hlow : lower t ret (deep + 1) true with
          | error e => simp [hlow] at hr
          | ok r3 =>
            obtain ⟨ty, t3⟩ := r3
            simp only [hlow, Except.ok.injEq, Prod.mk.injEq] at hr
            obtain ⟨_, rfl⟩ := hr
            exact hl _ _ _ _ _ _ hlow
        · rw [if_neg hk] at hr
          simp only [Except.ok.injEq, Prod.mk.injEq] at hr
          obtain ⟨_, rfl⟩ := hr
          exact sameOutputs_refl t

theorem typeSpecSwitch_sameOutputs (env : Env) (lower : Lowering)
    (hl : Lowering.keepsOutputs lower) (t : Translator) (spec : CTypeSpec) (typ : CCType)
    (deep : Nat) (isRet : Bool) (node : CType) (t1 : Translator)
    (h : typeSpecSwitch env lower t spec typ deep isRet = .ok (node, t1)) :
    t.sameOutputs t1 := by
  cases typ with
  | scalar kind s d =>
    simp only [typeSpecSwitch] at h
    cases hc : scalarCase spec kind with
    | none => simp [hc] at h
    | some s2 =>
      simp only [hc, Except.ok.injEq, Prod.mk.injEq] at h
      obtain ⟨_, rfl⟩ := h
      exact sameOutputs_refl t
  | ptr s d e => simp [typeSpecSwitch] at h
  | array s d n e => simp [typeSpecSwitch] at h
  | union s d tag node =>
    simp only [typeSpecSwitch, Except.ok.injEq, Prod.mk.injEq] at h
    obtain ⟨_, rfl⟩ := h
    exact sameOutputs_refl t
  | enum s d tag ens =>
    simp only [typeSpecSwitch] at h
    cases he : enumSpec env t spec (.enum s d tag ens) with
    | error e => simp [he] at h
    | ok r =>
      obtain ⟨s2, t2⟩ := r
      simp only [he, Except.ok.injEq, Prod.mk.injEq] at h
      obtain ⟨_, rfl⟩ := h
      exact enumSpec_sameOutputs env t spec _ _ _ he
  | struct s d tag node =>
    simp only [typeSpecSwitch] at h
    cases he : structSpec env lower t spec (.struct s d tag node) (deep + 1) with
    | error e => simp [he] at h
    | ok r =>
      obtain ⟨s2, t2⟩ := r
      simp only [he, Except.ok.injEq, Prod.mk.injEq] at h
      obtain ⟨_, rfl⟩ := h
      exact structSpec_sameOutputs env lower hl t spec _ _ _ _ he
  | function s d node =>
    simp only [typeSpecSwitch] at h
    cases he : functionSpec env lower t spec (.function s d node) (deep + 1) with
    | error e => simp [he] at h
    | ok r =>
      obtain ⟨s2, t2⟩ := r
      simp only [he] at h
      have ht : t1 = t2 := by
        split at h <;>
          (simp only [Except.ok.injEq, Prod.mk.injEq] at h; exact h.2.symm)
      subst ht
      exact functionSpec_sameOutputs env lower hl t spec _ _ _ _ he

/-- Lowering a type leaves the policy table, the file scope and the three output
collections as they were. -/
theorem typeSpecFuel_sameOutputs (env : Env) :
    ∀ fuel, Lowering.keepsOutputs (typeSpecFuel env fuel) := by
  intro fuel
  induction fuel with
  | zero => intro t typ deep isRet node t1 h; simp [typeSpecFuel] at h
  | succ k ih =>
    intro t typ deep isRet node t1 h
    simp only [typeSpecFuel] at h
    exact typeSpecSwitch_sameOutputs env _ ih t _ _ deep isRet node t1 h

/-! ### The declaration walker -/

theorem declarator_spec (env : Env) (t : Translator) (d : Declarator) (decl : CDecl)
    (t1 : Translator) (h : declarator env t d = .ok (decl, t1)) :
    t.sameOutputs t1 ∧ decl.Name = identifierOf env d.DirectDeclarator
      ∧ decl.IsStatic = d.RawSpecifier.IsStatic ∧ decl.IsTypedef = d.RawSpecifier.IsTypedef
      ∧ decl.Value = none ∧ decl.Expression = "" := by
  unfold declarator at h
  cases hs : typeSpec env t d.Typ 0 false with
  | error e => simp [hs] at h
  | ok r =>
    obtain ⟨spec, t2⟩ := r
    simp only [hs, Except.ok.injEq, Prod.mk.injEq] at h
    obtain ⟨rfl, rfl⟩ := h
    exact ⟨typeSpecFuel_sameOutputs env _ _ _ _ _ _ _ hs, rfl, rfl, rfl, rfl, rfl⟩

/-- The initializer block of `walkDeclaration` changes the Value and Expression fields
only, and it returns exactly when the initializer, if any, has an expression. -/
theorem attachInitializer_spec (env : Env) (decl decl2 : CDecl) (oi : Option Initializer)
    (h : attachInitializer env decl oi = .ok decl2) :
    decl2.Name = decl.Name ∧ decl2.IsStatic = decl.IsStatic
      ∧ decl2.IsTypedef = decl.IsTypedef ∧ decl2.Spec = decl.Spec
      ∧ (∀ init, oi = some init →
          ∃ e, init.Expression = some e ∧ decl2.Value = e.Value
            ∧ decl2.Expression = env.blessName e.TokenS)
      ∧ (oi = none → decl2.Value = decl.Value ∧ decl2.Expression = decl.Expression) := by
  cases oi with
  | none =>
    simp only [attachInitializer, Except.ok.injEq] at h
    subst h
    exact ⟨rfl, rfl, rfl, rfl, fun _ hi => (by cases hi), fun _ => ⟨rfl, rfl⟩⟩
  | some init =>
    simp only [attachInitializer] at h
    cases he : init.Expression with
    | none => simp [he] at h
    | some e =>
      simp only [he, Except.ok.injEq] at h
      subst h
      refine ⟨rfl, rfl, rfl, rfl, fun i hi => ?_, fun hi => (by cases hi)⟩
      cases hi
      exact ⟨e, he, rfl, rfl⟩

/-- The loop of `walkDeclaration` one step unfolded on a returning run: the declarator is
lowered, the initializer attached, the maps written when there is an initializer, and the
loop goes on with the rest. -/
theorem walkInitDeclaratorList_cons (env : Env) (item : InitDeclarator)
    (rest : List InitDeclarator) (t : Translator) (acc declared : List CDecl)
    (t1 : Translator)
    (h : walkInitDeclaratorList env t acc (item :: rest) = .ok (declared, t1)) :
    ∃ decl t2 decl2,
      declarator env t item.Declarator = .ok (decl, t2)
        ∧ attachInitializer env decl item.Initializer = .ok decl2
        ∧ walkInitDeclaratorList env
            (match item.Initializer with
              | some _ =>
                { registerTagsOf env t2 decl2 with
                  valueMap := mapSet (registerTagsOf env t2 decl2).valueMap decl2.Name
                    decl2.Value,
                  exprMap := mapSet (registerTagsOf env t2 decl2).exprMap decl2.Name
                    decl2.Expression }
              | none => registerTagsOf env t2 decl2)
            (acc ++ [decl2]) rest = .ok (declared, t1) := by
  simp only [walkInitDeclaratorList] at h
  cases hd : declarator env t item.Declarator with
  | error e => simp [hd] at h
  | ok r =>
    obtain ⟨decl, t2⟩ := r
    simp only [hd] at h
    cases ha : attachInitializer env decl item.Initializer with
    | error e => simp [ha] at h
    | ok decl2 =>
      simp only [ha] at h
      exact ⟨decl, t2, decl2, rfl, ha, h⟩

/-- The loop of `walkDeclaration`: one declaration per init declarator, appended in
order, and the outputs are left alone. -/
theorem walkInitDeclaratorList_spec (env : Env) :
    ∀ (list : List InitDeclarator) (t : Translator) (acc declared : List CDecl)
      (t1 : Translator), walkInitDeclaratorList env t acc list = .ok (declared, t1) →
      t.sameOutputs t1
        ∧ ∃ added, declared = acc ++ added
            ∧ List.Forall₂ (declOfInitDeclarator env) added list := by
  intro list
  induction list with
  | nil =>
    intro t acc declared t1 h
    simp only [walkInitDeclaratorList, Except.ok.injEq, Prod.mk.injEq] at h
    obtain ⟨rfl, rfl⟩ := h
    exact ⟨sameOutputs_refl t, [], by simp, List.Forall₂.nil⟩
  | cons item rest ih =>
    intro t acc declared t1 h
    obtain ⟨decl, t2, decl2, hd, ha, hrest⟩ :=
      walkInitDeclaratorList_cons env item rest t acc declared t1 h
    obtain ⟨hframe, hn, hst, htd, hv, he⟩ := declarator_spec env t _ _ _ hd
    obtain ⟨an, ast, atd, _, asome, anone⟩ := attachInitializer_spec env _ _ _ ha
    obtain ⟨hf2, added, hdecl, hall⟩ := ih _ _ _ _ hrest
    refine ⟨sameOutputs_trans (sameOutputs_trans hframe ?_) hf2, decl2 :: added,
      by rw [hdecl, List.append_assoc]; rfl, List.Forall₂.cons ?_ hall⟩
    · cases item.Initializer <;> exact ⟨rfl, rfl, rfl, rfl, rfl⟩
    · refine ⟨an.trans hn, ast.trans hst, atd.trans htd, ?_⟩
      revert asome anone
      cases item.Initializer with
      | none => exact fun _ anone => ⟨(anone rfl).1.trans hv, (anone rfl).2.trans he⟩
      | some init => exact fun asome _ => asome init rfl

/-- A brace enclosed initializer makes `walkDeclaration` dereference the nil expression:
on `int a[2] = \x7b1, 2\x7d;` it stops with the nil dereference panic. -/
theorem walkDeclaration_brace_initializer :
    walkDeclaration exampleEnv (exampleTranslator .ConstEval) braceDeclaration
      = .error .nilDereference := rfl

/-- The loop of `walkExternalDeclaration`: static declarations are dropped, typedefs that
are not static go to the typedef registry and name set, the others to the public list;
nothing else changes. -/
theorem classifyDeclares_spec :
    ∀ (declares : List CDecl) (t : Translator),
      (classifyDeclares t declares).declares = t.declares ++ declares.filter isPublic
        ∧ (classifyDeclares t declares).typedefs
            = t.typedefs ++ declares.filter (fun d => !d.IsStatic && d.IsTypedef)
        ∧ (∀ name, t.typedefsSet name = true →
            (classifyDeclares t declares).typedefsSet name = true)
        ∧ (∀ d ∈ declares, d.IsStatic = false → d.IsTypedef = true →
            (classifyDeclares t declares).typedefsSet d.Name = true)
        ∧ (classifyDeclares t declares).valueMap = t.valueMap
        ∧ (classifyDeclares t declares).exprMap = t.exprMap
        ∧ (classifyDeclares t declares).constRules = t.constRules
        ∧ (classifyDeclares t declares).fileScope = t.fileScope
        ∧ (classifyDeclares t declares).tagMap = t.tagMap := by
  intro declares
  induction declares with
  | nil => intro t; simp [classifyDeclares]
  | cons d rest ih =>
    intro t
    by_cases hs : d.IsStatic = true
    · rw [classifyDeclares, if_pos hs]
      obtain ⟨h1, h2, h3, h4, h5⟩ := ih t
      refine ⟨by rw [h1]; simp [isPublic, hs], by rw [h2]; simp [hs], h3, ?_, h5⟩
      intro x hx hxs hxt
      rcases List.mem_cons.mp hx with rfl | hx
      · rw [hs] at hxs; cases hxs
      · exact h4 x hx hxs hxt
    · by_cases ht : d.IsTypedef = true
      · rw [classifyDeclares, if_neg hs, if_pos ht]
        obtain ⟨h1, h2, h3, h4, h5⟩ := ih
          { t with typedefs := t.typedefs ++ [d],
                   typedefsSet := setInsert t.typedefsSet d.Name }
        refine ⟨by rw [h1]; simp [isPublic, hs, ht], by rw [h2]; simp [hs, ht], ?_, ?_, h5⟩
        · intro name hname
          apply h3
          simp only [setInsert]
          split
          · rfl
          · exact hname
        · intro x hx hxs hxt
          rcases List.mem_cons.mp hx with rfl | hx
          · apply h3; simp [setInsert]
          · exact h4 x hx hxs hxt
      · rw [classifyDeclares, if_neg hs, if_neg ht]
        obtain ⟨h1, h2, h3, h4, h5⟩ := ih { t with declares := t.declares ++ [d] }
        refine ⟨by rw [h1]; simp [isPublic, hs, ht], by rw [h2]; simp [hs, ht], h3, ?_, h5⟩
        intro x hx hxs hxt
        rcases List.mem_cons.mp hx with rfl | hx
        · exact absurd hxt ht
        · exact h4 x hx hxs hxt

/-- `walkDeclaration` returns one declaration per declarator and leaves the outputs alone. -/
theorem walkDeclaration_spec (env : Env) (t : Translator) (d : Declaration)
    (declares : List CDecl) (t1 : Translator)
    (h : walkDeclaration env t d = .ok (declares, t1)) :
    t.sameOutputs t1 ∧ declares.length = declaratorCount d := by
  unfold walkDeclaration at h
  unfold declaratorCount
  cases hl : d.InitDeclaratorListOpt with
  | some list =>
    simp only [hl] at h
    obtain ⟨hf, added, hdecl, hall⟩ := walkInitDeclaratorList_spec env list t [] _ _ h
    refine ⟨hf, ?_⟩
    rw [hdecl]
    simpa using hall.length_eq
  | none =>
    simp only [hl] at h
    cases hdo : d.Declarator with
    | none =>
      simp only [hdo, Except.ok.injEq, Prod.mk.injEq] at h
      obtain ⟨rfl, rfl⟩ := h
      exact ⟨sameOutputs_refl t, rfl⟩
    | some declr =>
      simp only [hdo] at h
      cases hd : declarator env t declr with
      | error e => simp [hd] at h
      | ok r =>
        obtain ⟨decl, t2⟩ := r
        simp only [hd, Except.ok.injEq, Prod.mk.injEq] at h
        obtain ⟨rfl, rfl⟩ := h
        obtain ⟨hframe, _⟩ := declarator_spec env t _ _ _ hd
        exact ⟨sameOutputs_trans hframe ⟨rfl, rfl, rfl, rfl, rfl⟩, rfl⟩

/-- The loop of `walkTranslationUnit` appends to the public list exactly the public ones
among the declarations produced along the walk. -/
theorem walkExternalDeclarations_declares (env : Env) :
    ∀ (ds : List ExternalDeclaration) (t t1 : Translator),
      walkExternalDeclarations env t ds = .ok t1 →
      ∃ produced, producedDeclarations env t ds = .ok produced
        ∧ t1.declares = t.declares ++ produced.filter isPublic := by
  intro ds
  induction ds with
  | nil =>
    intro t t1 h
    simp only [walkExternalDeclarations, Except.ok.injEq] at h
    subst h
    exact ⟨[], rfl, by simp⟩
  | cons d rest ih =>
    intro t t1 h
    cases d with
    | FunctionDefinition =>
      simp only [walkExternalDeclarations, walkExternalDeclaration] at h
      simpa only [producedDeclarations] using ih t t1 h
    | other k =>
      simp only [walkExternalDeclarations, walkExternalDeclaration] at h
      simpa only [producedDeclarations] using ih t t1 h
    | Declaration decl =>
      simp only [walkExternalDeclarations, walkExternalDeclaration] at h
      cases hw : walkDeclaration env t decl with
      | error e => simp [hw] at h
      | ok r =>
        obtain ⟨declares, t0⟩ := r
        simp only [hw] at h
        obtain ⟨produced, hp, hd⟩ := ih _ _ h
        obtain ⟨hframe, _⟩ := walkDeclaration_spec env t decl declares t0 hw
        obtain ⟨hc, _⟩ := classifyDeclares_spec declares t0
        refine ⟨declares ++ produced, by simp only [producedDeclarations, hw, hp], ?_⟩
        rw [hd, hc, hframe.2.2.1, List.filter_append, List.append_assoc]

/-- C2 (amended): when `walkExternalDeclaration` processes a declaration entry, the public
list grows by exactly the produced declarations that are neither static nor typedef, so a
declaration marked static or typedef is never appended to it; a declaration marked typedef
and not static is appended to the typedef registry and its name is inserted into the
typedef name set. -/
theorem walkExternalDeclaration_classifies (env : Env) (t : Translator) (d : Declaration)
    (declares : List CDecl) (t0 : Translator)
    (hw : walkDeclaration env t d = .ok (declares, t0)) :
    ∃ t1, walkExternalDeclaration env t (.Declaration d) = .ok t1
      ∧ t1.declares = t.declares ++ declares.filter isPublic
      ∧ (∀ x ∈ declares.filter isPublic, x.IsStatic = false ∧ x.IsTypedef = false)
      ∧ t1.typedefs = t.typedefs ++ declares.filter (fun x => !x.IsStatic && x.IsTypedef)
      ∧ (∀ x ∈ declares, x.IsStatic = false → x.IsTypedef = true →
          t1.typedefsSet x.Name = true) := by
  obtain ⟨hframe, _⟩ := walkDeclaration_spec env t d declares t0 hw
  obtain ⟨h1, h2, _, h4, _⟩ := classifyDeclares_spec declares t0
  refine ⟨classifyDeclares t0 declares, by simp only [walkExternalDeclaration, hw], ?_, ?_,
    ?_, h4⟩
  · rw [h1, hframe.2.2.1]
  · intro x hx
    have hp := (List.mem_filter.mp hx).2
    simpa [isPublic] using hp
  · rw [h2, hframe.2.2.2.1]

/-- C2 (counterexample): the declaration `static typedef int T;` is marked typedef, yet
`walkExternalDeclaration` neither appends it to the typedef registry nor inserts its name
into the typedef name set. -/
theorem walkExternalDeclaration_static_typedef_dropped :
    ∃ decl t0 t1,
      walkDeclaration exampleEnv (exampleTranslator .ConstEval) staticTypedefDeclaration
          = .ok ([decl], t0)
        ∧ decl.Name = "T" ∧ decl.IsTypedef = true ∧ decl.IsStatic = true
        ∧ walkExternalDeclaration exampleEnv (exampleTranslator .ConstEval)
            (.Declaration staticTypedefDeclaration) = .ok t1
        ∧ t1.typedefs = [] ∧ t1.typedefsSet "T" = false ∧ t1.declares = [] :=
  ⟨_, _, _, rfl, rfl, rfl, rfl, rfl, rfl, rfl, rfl⟩

/-- Witness for C2 (amended): `typedef int T;` goes to the typedef registry and name set
and not to the public list. -/
theorem walkExternalDeclaration_classifies_witness :
    ∃ declares t0,
      walkDeclaration exampleEnv (exampleTranslator .ConstEval) typedefDeclaration
          = .ok (declares, t0)
        ∧ (∃ t1, walkExternalDeclaration exampleEnv (exampleTranslator .ConstEval)
              (.Declaration typedefDeclaration) = .ok t1
            ∧ t1.declares
                = (exampleTranslator .ConstEval).declares ++ declares.filter isPublic
            ∧ (∀ x ∈ declares.filter isPublic, x.IsStatic = false ∧ x.IsTypedef = false)
            ∧ t1.typedefs = (exampleTranslator .ConstEval).typedefs
                ++ declares.filter (fun x => !x.IsStatic && x.IsTypedef)
            ∧ (∀ x ∈ declares, x.IsStatic = false → x.IsTypedef = true →
                t1.typedefsSet x.Name = true))
        ∧ declares.map (fun x => x.Name) = ["T"]
        ∧ declares.filter isPublic = [] :=
  ⟨_, _, rfl,
    walkExternalDeclaration_classifies exampleEnv (exampleTranslator .ConstEval)
      typedefDeclaration _ _ rfl, rfl, rfl⟩

/-- C3: after `walkTranslationUnit` the public declaration list is its previous content
followed by exactly the declarations produced from the declaration entries that are
neither static nor typedef, in source order; every declaration entry produces one
declaration per declarator, function definitions produce none. -/
theorem walkTranslationUnit_public_declarations (env : Env) (t : Translator)
    (unit : TranslationUnit) (t1 : Translator)
    (h : walkTranslationUnit env t unit = .ok t1) :
    ∃ produced,
      producedDeclarations env { t with fileScope := unit.Declarations }
          (unit.first :: unit.rest) = .ok produced
        ∧ t1.declares = t.declares ++ produced.filter isPublic
        ∧ (∀ x ∈ produced.filter isPublic, x.IsStatic = false ∧ x.IsTypedef = false)
        ∧ (∀ t2 d ds t3, walkDeclaration env t2 d = .ok (ds, t3) →
            ds.length = declaratorCount d) := by
  obtain ⟨produced, hp, hd⟩ := walkExternalDeclarations_declares env _ _ _ h
  refine ⟨produced, hp, hd, ?_, ?_⟩
  · intro x hx
    have hpub := (List.mem_filter.mp hx).2
    simpa [isPublic] using hpub
  · intro t2 d ds t3 hw
    exact (walkDeclaration_spec env t2 d ds t3 hw).2

/-- Witness for C3: the example unit walked from a state that already holds the public
declaration `old` ends with the public declarations `old`, `a`, `b`. -/
theorem walkTranslationUnit_public_declarations_witness :
    ∃ t1, walkTranslationUnit exampleEnv startedTranslator exampleUnit = .ok t1
      ∧ (∃ produced,
          producedDeclarations exampleEnv
              { startedTranslator with fileScope := exampleUnit.Declarations }
              (exampleUnit.first :: exampleUnit.rest) = .ok produced
            ∧ t1.declares = startedTranslator.declares ++ produced.filter isPublic
            ∧ (∀ x ∈ produced.filter isPublic, x.IsStatic = false ∧ x.IsTypedef = false)
            ∧ (∀ t2 d ds t3, walkDeclaration exampleEnv t2 d = .ok (ds, t3) →
                ds.length = declaratorCount d))
      ∧ t1.declares.map (fun x => x.Name) = ["old", "a", "b"] :=
  ⟨_, rfl,
    walkTranslationUnit_public_declarations exampleEnv startedTranslator exampleUnit _ rfl,
    rfl⟩

/-- C8 (failing input): on `int *(*p)[4]`, a pointer to an array of pointers to `int` built
from recognized kinds only, `typeSpec` panics with the unknown type error on the pointer
that is left after the three loops. -/
theorem typeSpec_pointer_to_array_of_pointers :
    pointerToArrayOfPointers.Kind = .Ptr
      ∧ typeSpec exampleEnv (exampleTranslator .ConstEval) pointerToArrayOfPointers 0 false
          = .error (.unknownType (.ptr {} {} intType))
      ∧ (CCType.ptr {} {} intType).Kind = .Ptr :=
  ⟨rfl, rfl, rfl⟩

/-! ### The stripping loops in closed form -/

theorem stripOuterArr_eq : ∀ (typ : CCType) (spec : CTypeSpec),
    stripOuterArr typ spec
      = (typ.belowArrays, { spec with OuterArr := spec.OuterArr ++ typ.arrayBounds }) := by
  intro typ
  induction typ with
  | array s d n e ih =>
    intro spec
    simp only [stripOuterArr, CCType.belowArrays, CCType.arrayBounds]
    rw [ih]
    by_cases hn : n ≥ 0
    · simp [hn, CTypeSpec.AddOuterArr]
    · simp [hn]
  | _ => intro spec; simp [stripOuterArr, CCType.belowArrays, CCType.arrayBounds]

theorem stripInnerArr_eq : ∀ (typ : CCType) (spec : CTypeSpec),
    stripInnerArr typ spec
      = (typ.belowArrays, { spec with InnerArr := spec.InnerArr ++ typ.arrayBounds }) := by
  intro typ
  induction typ with
  | array s d n e ih =>
    intro spec
    simp only [stripInnerArr, CCType.belowArrays, CCType.arrayBounds]
    rw [ih]
    by_cases hn : n ≥ 0
    · simp [hn, CTypeSpec.AddInnerArr]
    · simp [hn]
  | _ => intro spec; simp [stripInnerArr, CCType.belowArrays, CCType.arrayBounds]

theorem stripPointers_eq : ∀ (typ : CCType) (spec : CTypeSpec),
    stripPointers typ spec
      = (typ.belowPointers, { spec with Pointers := spec.Pointers + typ.pointerLevels }) := by
  intro typ
  induction typ with
  | ptr s d e ih =>
    intro spec
    simp only [stripPointers, CCType.belowPointers, CCType.pointerLevels]
    rw [ih]
    have harith : spec.Pointers + 1 + e.pointerLevels = spec.Pointers + (e.pointerLevels + 1) := by
      omega
    simp [harith]
  | _ => intro spec; simp [stripPointers, CCType.belowPointers, CCType.pointerLevels]

/-- The three loops of `typeSpec` in closed form. -/
theorem stripLevels_eq (typ : CCType) (spec : CTypeSpec) :
    stripLevels typ spec
      = (typ.baseOf,
         { spec with
           OuterArr := spec.OuterArr ++ typ.arrayBounds,
           Pointers := spec.Pointers + typ.belowArrays.pointerLevels,
           InnerArr := spec.InnerArr ++ typ.belowArrays.belowPointers.arrayBounds }) := by
  unfold stripLevels
  rw [stripOuterArr_eq]
  simp only
  rw [stripPointers_eq]
  simp only
  rw [stripInnerArr_eq]
  rfl

/-- What `typeSpec` passes to the kind switch. -/
theorem typeSpecFuel_succ (env : Env) (fuel : Nat) (t : Translator) (typ : CCType)
    (deep : Nat) (isRet : Bool) :
    typeSpecFuel env (fuel + 1) t typ deep isRet
      = typeSpecSwitch env (typeSpecFuel env fuel) t
          { typeSpecInit env typ isRet with
            OuterArr := typ.arrayBounds,
            Pointers := typ.belowArrays.pointerLevels,
            InnerArr := typ.belowArrays.belowPointers.arrayBounds }
          typ.baseOf deep isRet := by
  obtain ⟨h0p, h0o, h0i⟩ := typeSpecInit_decorations env typ isRet
  simp only [typeSpecFuel]
  rw [stripLevels_eq]
  simp [h0p, h0o, h0i]

/-- The nested calls made by the kind switch of `typeSpec` behave as `typeSpec` itself. -/
theorem typeSpecSwitch_typeSpec (env : Env) (t : Translator) (spec : CTypeSpec)
    (typ : CCType) (deep : Nat) (isRet : Bool) :
    typeSpecSwitch env (typeSpecFuel env (maxDeepLevel + 1)) t spec typ deep isRet
      = typeSpecSwitch env (typeSpec env) t spec typ deep isRet := by
  apply typeSpecSwitch_congr
  intro hd t2 ty r
  simp only [maxDeepLevel] at hd
  exact typeSpecFuel_stable env _ _ (deep + 2) t2 ty r (by simp [maxDeepLevel])
    (by simp only [maxDeepLevel]; omega) (by simp [maxDeepLevel])
    (by simp only [maxDeepLevel]; omega)

/-- One unfolding of `typeSpec`, the nested calls being `typeSpec` again. -/
theorem typeSpec_eq_switch (env : Env) (t : Translator) (typ : CCType) (deep : Nat)
    (isRet : Bool) :
    typeSpec env t typ deep isRet
      = typeSpecSwitch env (typeSpec env) t
          { typeSpecInit env typ isRet with
            OuterArr := typ.arrayBounds,
            Pointers := typ.belowArrays.pointerLevels,
            InnerArr := typ.belowArrays.belowPointers.arrayBounds }
          typ.baseOf deep isRet := by
  rw [← typeSpecSwitch_typeSpec]
  exact typeSpecFuel_succ env (maxDeepLevel + 1) t typ deep isRet

/-! ### The aggregate builders in closed form -/

theorem lowerAll_length (lower : Lowering) (deep : Nat) :
    ∀ (typs : List CCType) (t : Translator) (tys : List CType) (t1 : Translator),
      lowerAll lower deep t typs = .ok (tys, t1) → tys.length = typs.length := by
  intro typs
  induction typs with
  | nil =>
    intro t tys t1 h
    simp only [lowerAll, Except.ok.injEq, Prod.mk.injEq] at h
    rw [← h.1]
    rfl
  | cons typ rest ih =>
    intro t tys t1 h
    simp only [lowerAll] at h
    cases hl : lower t typ (deep + 1) false with
    | error e => simp [hl] at h
    | ok r =>
      obtain ⟨ty, t2⟩ := r
      simp only [hl] at h
      cases hr : lowerAll lower deep t2 rest with
      | error e => simp [hr] at h
      | ok r2 =>
        obtain ⟨tys2, t3⟩ := r2
        simp only [hr, Except.ok.injEq, Prod.mk.injEq] at h
        rw [← h.1]
        simp [ih _ _ _ hr]

/-- The loop of `structSpec` lowers the member types in order and appends one member
declaration for each. -/
theorem structSpecLoop_eq (env : Env) (lower : Lowering) (deep : Nat) :
    ∀ (ms : List Member) (spec : CStructSpec) (t : Translator),
      structSpecLoop env lower deep spec t ms
        = match lowerAll lower deep t (ms.map (fun m => m.Typ)) with
          | .error e => .error e
          | .ok (tys, t1) =>
            .ok ({ spec with
                   Members := spec.Members ++ List.zipWith (structMember env) ms tys }, t1) := by
  intro ms
  induction ms with
  | nil => intro spec t; simp [structSpecLoop, lowerAll]
  | cons m rest ih =>
    intro spec t
    simp only [structSpecLoop, List.map_cons, lowerAll]
    cases hl : lower t m.Typ (deep + 1) false with
    | error e => rfl
    | ok r =>
      obtain ⟨ty, t2⟩ := r
      simp only
      rw [ih]
      cases hr : lowerAll lower deep t2 (rest.map (fun m => m.Typ)) with
      | error e => rfl
      | ok r2 =>
        obtain ⟨tys2, t3⟩ := r2
        simp

/-- The loop of `functionSpec` lowers the parameter types in order and appends one
parameter declaration for each. -/
theorem functionSpecLoop_eq (env : Env) (lower : Lowering) (deep : Nat) :
    ∀ (ps : List Parameter) (spec : CFunctionSpec) (t : Translator),
      functionSpecLoop env lower deep spec t ps
        = match lowerAll lower deep t (ps.map (fun p => p.Typ)) with
          | .error e => .error e
          | .ok (tys, t1) =>
            .ok ({ spec with
                   Params := spec.Params ++ List.zipWith (functionParam env) ps tys }, t1) := by
  intro ps
  induction ps with
  | nil => intro spec t; simp [functionSpecLoop, lowerAll]
  | cons p rest ih =>
    intro spec t
    simp only [functionSpecLoop, List.map_cons, lowerAll]
    cases hl : lower t p.Typ (deep + 1) false with
    | error e => rfl
    | ok r =>
      obtain ⟨ty, t2⟩ := r
      simp only
      rw [ih]
      cases hr : lowerAll lower deep t2 (rest.map (fun p => p.Typ)) with
      | error e => rfl
      | ok r2 =>
        obtain ⟨tys2, t3⟩ := r2
        simp

/-- The return step of `functionSpec` sets the return type described by `lowerReturn`. -/
theorem functionSpecReturn_eq (env : Env) (lower : Lowering) (deep : Nat)
    (spec : CFunctionSpec) (t : Translator) (typ : CCType) (hnone : spec.Return = none) :
    functionSpecReturn env lower deep spec t typ
      = match lowerReturn env lower deep t typ with
        | .error e => .error e
        | .ok (ret, t1) => .ok ({ spec with Return := ret }, t1) := by
  unfold functionSpecReturn lowerReturn
  cases hres : resultOf env typ with
  | none => simp only; rw [← hnone]
  | some ret =>
    simp only
    by_cases hk : ret.Kind = .Void
    · simp only [hk, ne_eq, not_true_eq_false, if_false, if_true]
      rw [← hnone]
    · simp only [hk, ne_eq, not_false_eq_true, if_true, if_false]
      cases lower t ret (deep + 1) true with
      | error e => rfl
      | ok r => rfl

/-- `structSpec` in closed form. -/
theorem structSpec_eq (env : Env) (lower : Lowering) (t : Translator) (base : CTypeSpec)
    (typ : CCType) (deep : Nat) :
    structSpec env lower t base typ deep
      = if deep > maxDeepLevel then
          .ok ({ Tag := getStructTag env t typ, IsUnion := decide (typ.Kind = .Union),
                 Pointers := base.Pointers, OuterArr := base.OuterArr,
                 InnerArr := base.InnerArr }, t)
        else
          match lowerAll lower deep t ((membersOf env typ).map (fun m => m.Typ)) with
          | .error e => .error e
          | .ok (tys, t1) =>
            .ok ({ Tag := getStructTag env t typ, IsUnion := decide (typ.Kind = .Union),
                   Members := List.zipWith (structMember env) (membersOf env typ) tys,
                   Pointers := base.Pointers, OuterArr := base.OuterArr,
                   InnerArr := base.InnerArr }, t1) := by
  unfold structSpec
  by_cases hd : deep > maxDeepLevel
  · simp only [hd, if_true]
  · simp only [hd, if_false]
    rw [structSpecLoop_eq]
    cases lowerAll lower deep t ((membersOf env typ).map (fun m => m.Typ)) with
    | error e => rfl
    | ok r => obtain ⟨tys, t1⟩ := r; simp

/-- `functionSpec` in closed form. -/
theorem functionSpec_eq (env : Env) (lower : Lowering) (t : Translator) (base : CTypeSpec)
    (typ : CCType) (deep : Nat) :
    functionSpec env lower t base typ deep
      = if deep > maxDeepLevel then
          .ok ({ Raw := identifierOf env typ.Declarator.DirectDeclarator,
                 Pointers := base.Pointers }, t)
        else
          match lowerReturn env lower deep t typ with
          | .error e => .error e
          | .ok (ret, t1) =>
            match lowerAll lower deep t1 ((parametersOf env typ).map (fun p => p.Typ)) with
            | .error e => .error e
            | .ok (tys, t2) =>
              .ok ({ Raw := identifierOf env typ.Declarator.DirectDeclarator,
                     Return := ret,
                     Params := List.zipWith (functionParam env) (parametersOf env typ) tys,
                     Pointers := base.Pointers }, t2) := by
  unfold functionSpec
  by_cases hd : deep > maxDeepLevel
  · simp only [hd, if_true]
  · simp only [hd, if_false]
    rw [functionSpecReturn_eq env lower deep _ t typ rfl]
    cases lowerReturn env lower deep t typ with
    | error e => rfl
    | ok r =>
      obtain ⟨ret, t1⟩ := r
      simp only
      rw [functionSpecLoop_eq]
      cases lowerAll lower deep t1 ((parametersOf env typ).map (fun p => p.Typ)) with
      | error e => rfl
      | ok r2 => obtain ⟨tys, t2⟩ := r2; simp

/-! ### The depth cap -/

/-- C14: beyond `maxDeepLevel`, `structSpec` returns a Struct with the resolved tag, the
given decorations and no member, and `functionSpec` returns a Function with no return type
and no parameter, the translator being untouched; within the cap `structSpec` lowers the
member types in declaration order by `typeSpec` at depth `deep + 1` outside return position
and returns one member per member of the type, each with the name of the member (empty
when unnamed), its lowered type and the position of its declarator.  The resolved tag is
the one the file scope binds to the tag identifier of the type: the blessed identifier of
the struct or union specifier bound there, or the blessed text of a token bound there, and
empty for a specifier without identifier and for any other binding.  With the tag
identifier of `struct N` bound to its specifier, `struct N` lowers beyond the cap to the
Struct tagged `_N` without member and at the cap to the Struct tagged `_N` with the member
`_next`, under a `blessName` that puts an underscore in front. -/
theorem structSpec_functionSpec_depth_cap (env : Env) (t : Translator) (base : CTypeSpec)
    (typ : CCType) (deep : Nat) :
    (deep > maxDeepLevel →
        structSpec env (typeSpec env) t base typ deep
            = .ok ({ Tag := getStructTag env t typ, IsUnion := decide (typ.Kind = .Union),
                     Members := [], Pointers := base.Pointers, OuterArr := base.OuterArr,
                     InnerArr := base.InnerArr }, t)
          ∧ functionSpec env (typeSpec env) t base typ deep
            = .ok ({ Raw := identifierOf env typ.Declarator.DirectDeclarator,
                     Return := none, Params := [], Pointers := base.Pointers }, t))
      ∧ (deep ≤ maxDeepLevel →
          structSpec env (typeSpec env) t base typ deep
            = match lowerAll (typeSpec env) deep t ((membersOf env typ).map (fun m => m.Typ)) with
              | .error e => .error e
              | .ok (tys, t1) =>
                .ok ({ Tag := getStructTag env t typ, IsUnion := decide (typ.Kind = .Union),
                       Members := List.zipWith (structMember env) (membersOf env typ) tys,
                       Pointers := base.Pointers, OuterArr := base.OuterArr,
                       InnerArr := base.InnerArr }, t1))
      ∧ (∀ tys t1,
          lowerAll (typeSpec env) deep t ((membersOf env typ).map (fun m => m.Typ))
              = .ok (tys, t1) →
            (List.zipWith (structMember env) (membersOf env typ) tys).length
                = (membersOf env typ).length
              ∧ (List.zipWith (structMember env) (membersOf env typ) tys).map (fun x => x.Name)
                  = (membersOf env typ).map (memberName env)
              ∧ (List.zipWith (structMember env) (membersOf env typ) tys).map (fun x => x.Spec)
                  = tys.map some)
      ∧ (∀ s t1, structSpec env (typeSpec env) t base typ deep = .ok (s, t1) →
          (∀ tok, t.fileScope typ.Tag = .StructOrUnionSpecifier (some tok) →
              s.Tag = env.blessName tok.S)
            ∧ (∀ tok, t.fileScope typ.Tag = .Token tok → s.Tag = env.blessName tok.S)
            ∧ (t.fileScope typ.Tag = .StructOrUnionSpecifier none → s.Tag = "")
            ∧ (t.fileScope typ.Tag = .other → s.Tag = ""))
      ∧ (∀ (m : Member) (ty : CType),
          (structMember env m ty).Name
              = (if m.Name = 0 then "" else env.blessName (env.DictS m.Name))
            ∧ (structMember env m ty).Spec = some ty
            ∧ (structMember env m ty).Pos = m.Declarator.getD 0)
      ∧ structSpec blessingEnv (typeSpec blessingEnv) taggedTranslator { Pointers := 1 }
            selfStruct 4
          = .ok ({ Tag := "_N", Pointers := 1 }, taggedTranslator)
      ∧ (∃ s t1,
          structSpec blessingEnv (typeSpec blessingEnv) taggedTranslator {} selfStruct 3
              = .ok (s, t1)
            ∧ s.Tag = "_N" ∧ s.Members.map (fun x => x.Name) = ["_next"]
            ∧ s.Members.map (fun x => x.Pos) = [7]
            ∧ s.Members.map (fun x => x.Spec.map CType.Pointers) = [some 1]) := by
  refine ⟨?_, ?_, ?_, ?_, ?_, rfl, ⟨_, _, rfl, rfl, rfl, rfl, rfl⟩⟩
  · intro hd
    constructor
    · rw [structSpec_eq, if_pos hd]
    · rw [functionSpec_eq, if_pos hd]
  · intro hd
    rw [structSpec_eq, if_neg (Nat.not_lt.mpr hd)]
    try rfl
  · intro tys t1 h
    have hlen := lowerAll_length _ _ _ _ _ _ h
    simp only [List.length_map] at hlen
    generalize membersOf env typ = ms at hlen
    clear h
    induction ms generalizing tys with
    | nil => cases tys <;> simp_all
    | cons m rest ih =>
      cases tys with
      | nil => simp at hlen
      | cons ty tys2 =>
        simp only [List.length_cons, Nat.add_right_cancel_iff] at hlen
        obtain ⟨h1, h2, h3⟩ := ih tys2 hlen
        simp only [List.zipWith_cons_cons, List.length_cons, List.map_cons, h1, h2, h3]
        exact ⟨trivial, by simp [structMember], by simp [structMember]⟩
  · intro s t1 h
    have htag : s.Tag = getStructTag env t typ := by
      rw [structSpec_eq] at h
      split at h
      · simp only [Except.ok.injEq, Prod.mk.injEq] at h
        rw [← h.1]
      · split at h
        · cases h
        · simp only [Except.ok.injEq, Prod.mk.injEq] at h
          rw [← h.1]
    rw [htag]
    unfold getStructTag
    refine ⟨?_, ?_, ?_, ?_⟩
    · intro tok hb; rw [hb]
    · intro tok hb; rw [hb]
    · intro hb; rw [hb]
    · intro hb; rw [hb]
  · intro m ty
    refine ⟨rfl, rfl, ?_⟩
    cases hm : m.Declarator <;> simp [structMember, hm]

/-- C15: within the depth cap `functionSpec` returns a Function whose return type is the one
described by `lowerReturn` (absent exactly when the result type is missing or void,
otherwise `typeSpec` of the result at depth `deep + 1` in return position) and whose
parameters are the parameters of the type in declaration order, each with its name (empty
when unnamed, the blessed dictionary text of the name otherwise), its type lowered by
`typeSpec` at depth `deep + 1` outside return position and the position of its declarator.
A function `int f(int p, int)` lowers to the return type `int` and the parameters `_p` and
the unnamed one, under a `blessName` that puts an underscore in front. -/
theorem functionSpec_return_and_params (env : Env) (t : Translator) (base : CTypeSpec)
    (typ : CCType) (deep : Nat) :
    (deep ≤ maxDeepLevel →
        functionSpec env (typeSpec env) t base typ deep
          = match lowerReturn env (typeSpec env) deep t typ with
            | .error e => .error e
            | .ok (ret, t1) =>
              match lowerAll (typeSpec env) deep t1
                  ((parametersOf env typ).map (fun p => p.Typ)) with
              | .error e => .error e
              | .ok (tys, t2) =>
                .ok ({ Raw := identifierOf env typ.Declarator.DirectDeclarator,
                       Return := ret,
                       Params := List.zipWith (functionParam env) (parametersOf env typ) tys,
                       Pointers := base.Pointers }, t2))
      ∧ (∀ ret t1, lowerReturn env (typeSpec env) deep t typ = .ok (ret, t1) →
          (ret = none ↔
            (resultOf env typ = none ∨ ∃ r, resultOf env typ = some r ∧ r.Kind = .Void)))
      ∧ (∀ r, resultOf env typ = some r → r.Kind ≠ .Void →
          lowerReturn env (typeSpec env) deep t typ
            = match typeSpec env t r (deep + 1) true with
              | .error e => .error e
              | .ok (ty, t1) => .ok (some ty, t1))
      ∧ (∀ t0 tys t1,
          lowerAll (typeSpec env) deep t0 ((parametersOf env typ).map (fun p => p.Typ))
              = .ok (tys, t1) →
            (List.zipWith (functionParam env) (parametersOf env typ) tys).length
                = (parametersOf env typ).length
              ∧ (List.zipWith (functionParam env) (parametersOf env typ) tys).map
                    (fun x => x.Name)
                  = (parametersOf env typ).map (paramName env)
              ∧ (List.zipWith (functionParam env) (parametersOf env typ) tys).map
                    (fun x => x.Spec)
                  = tys.map some)
      ∧ (∀ p : Parameter, p.Name = 0 → paramName env p = "")
      ∧ (∀ p : Parameter, p.Name ≠ 0 → paramName env p = env.blessName (env.DictS p.Name))
      ∧ (∀ (p : Parameter) (ty : CType),
          (functionParam env p ty).Name
              = (if p.Name = 0 then "" else env.blessName (env.DictS p.Name))
            ∧ (functionParam env p ty).Spec = some ty
            ∧ (functionParam env p ty).Pos = p.Declarator)
      ∧ (∃ fs t1,
          functionSpec blessingEnv (typeSpec blessingEnv) (exampleTranslator .ConstEval) {}
              prototypeType 1 = .ok (fs, t1)
            ∧ fs.Params.map (fun x => x.Name) = ["_p", ""]
            ∧ fs.Params.map (fun x => x.Pos) = [8, 9]
            ∧ fs.Params.map (fun x => x.Spec)
                = [some (.typeSpec { Base := "int" }), some (.typeSpec { Base := "int" })]
            ∧ fs.Return = some (.typeSpec { Base := "int" })) := by
  refine ⟨?_, ?_, ?_, ?_, ?_, ?_, ?_, ⟨_, _, rfl, rfl, rfl, rfl, rfl⟩⟩
  · intro hd
    rw [functionSpec_eq, if_neg (Nat.not_lt.mpr hd)]
    try rfl
  · intro ret t1 h
    unfold lowerReturn at h
    cases hres : resultOf env typ with
    | none =>
      simp only [hres, Except.ok.injEq, Prod.mk.injEq] at h
      simp [← h.1]
    | some r =>
      simp only [hres] at h
      by_cases hk : r.Kind = .Void
      · simp only [hk, if_true, Except.ok.injEq, Prod.mk.injEq] at h
        simp [← h.1, hk]
      · simp only [hk, if_false] at h
        cases hl : typeSpec env t r (deep + 1) true with
        | error e => simp [hl] at h
        | ok r2 =>
          obtain ⟨ty, t2⟩ := r2
          simp only [hl, Except.ok.injEq, Prod.mk.injEq] at h
          simp [← h.1, hk]
  · intro r hres hk
    unfold lowerReturn
    simp only [hres, hk, if_false]
    try rfl
  · intro t0 tys t1 h
    have hlen := lowerAll_length _ _ _ _ _ _ h
    simp only [List.length_map] at hlen
    generalize parametersOf env typ = ps at hlen
    clear h
    induction ps generalizing tys with
    | nil => cases tys <;> simp_all
    | cons p rest ih =>
      cases tys with
      | nil => simp at hlen
      | cons ty tys2 =>
        simp only [List.length_cons, Nat.add_right_cancel_iff] at hlen
        obtain ⟨h1, h2, h3⟩ := ih tys2 hlen
        simp only [List.zipWith_cons_cons, List.length_cons, List.map_cons, h1, h2, h3]
        exact ⟨trivial, by simp [functionParam], by simp [functionParam]⟩
  · intro p hp
    simp [paramName, hp]
  · intro p hp
    simp [paramName, hp]
  · intro p ty
    exact ⟨rfl, rfl, rfl⟩

/-- C19: a struct type lowered by `typeSpec` at depth `deep` goes through `structSpec` at
depth `deep + 1`, whose members are lowered at depth `deep + 2`; the returned Struct has one
member per member of the type when `deep ≤ 2` and no member when `2 < deep`.  For the
self-referential `struct N { struct N *next; }` lowered from depth 0 the member `next` is a
Struct with one member, and the Struct of that inner member has no member. -/
theorem typeSpec_struct_nesting (env : Env) (t : Translator) (s : Specifier)
    (d : TypeDeclarator) (tag node deep : Nat) (isRet : Bool) :
    typeSpec env t (.struct s d tag node) deep isRet
        = (match structSpec env (typeSpec env) t
              (typeSpecInit env (.struct s d tag node) isRet) (.struct s d tag node)
              (deep + 1) with
          | .error e => .error e
          | .ok (ss, t1) =>
            .ok (.structSpec (if !isRet then
              { ss with Typedef := typedefNameOf env (.struct s d tag node) } else ss), t1))
      ∧ (deep ≤ 2 → ∀ n t1, typeSpec env t (.struct s d tag node) deep isRet = .ok (n, t1) →
          n.members.length = (env.Members node).length)
      ∧ (2 < deep → ∃ ss, typeSpec env t (.struct s d tag node) deep isRet
            = .ok (.structSpec ss, t) ∧ ss.Members = [])
      ∧ (∃ n t1, typeSpec exampleEnv (exampleTranslator .ConstEval) selfStruct 0 false
            = .ok (n, t1)
          ∧ n.members.map (fun m => m.Name) = ["next"]
          ∧ n.memberNodes.map (fun c => c.members.map (fun m => m.Name)) = [["next"]]
          ∧ n.memberNodes.map (fun c => c.memberNodes.map (fun c2 => c2.members.length))
              = [[0]]) := by
  have heq : typeSpec env t (.struct s d tag node) deep isRet
      = (match structSpec env (typeSpec env) t
            (typeSpecInit env (.struct s d tag node) isRet) (.struct s d tag node)
            (deep + 1) with
        | .error e => .error e
        | .ok (ss, t1) =>
          .ok (.structSpec (if !isRet then
            { ss with Typedef := typedefNameOf env (.struct s d tag node) } else ss), t1)) := by
    rw [typeSpec_unfold, stripLevels_base (.struct s d tag node) _ rfl,
      typeSpecSwitch_typeSpec]
    simp only [typeSpecSwitch]
    try rfl
  refine ⟨heq, ?_, ?_, ?_⟩
  · intro hd n t1 h
    rw [heq, structSpec_eq, if_neg (by simp only [maxDeepLevel]; omega)] at h
    simp only [membersOf] at h
    cases hl : lowerAll (typeSpec env) (deep + 1) t ((env.Members node).map (fun m => m.Typ)) with
    | error e => simp [hl] at h
    | ok r =>
      obtain ⟨tys, t2⟩ := r
      have hlen := lowerAll_length _ _ _ _ _ _ hl
      simp only [hl, Except.ok.injEq, Prod.mk.injEq] at h
      rw [← h.1]
      cases isRet <;> simp [CType.members, hlen]
  · intro hd
    rw [heq, structSpec_eq, if_pos (by simp only [maxDeepLevel]; omega)]
    cases isRet <;> exact ⟨_, rfl, rfl⟩
  · exact ⟨_, _, rfl, by decide, by decide, by decide⟩

/-! ### Typedef aliases and decorations of the returned node -/

theorem scalarCase_raw (spec s2 : CTypeSpec) (kind : ScalarKind)
    (h : scalarCase spec kind = some s2) : s2.Raw = spec.Raw := by
  cases kind <;> simp [scalarCase] at h <;> rw [← h]

theorem enumSpec_typedef (env : Env) (t : Translator) (base : CTypeSpec) (typ : CCType)
    (s : CEnumSpec) (t1 : Translator) (h : enumSpec env t base typ = .ok (s, t1)) :
    s.Typedef = "" := by
  unfold enumSpec at h
  rcases enumSpecLoop_cases env typ.EnumeratorList
    { Tag := env.blessName (env.DictS typ.Tag), Pointers := base.Pointers,
      OuterArr := base.OuterArr, InnerArr := base.InnerArr } t with ⟨hall, _⟩ | ⟨_, herr⟩
  · obtain ⟨s2, t2, _, heq, _, _, _, _, _, _, h5, _⟩ :=
      enumSpecLoop_ok env typ.EnumeratorList
        { Tag := env.blessName (env.DictS typ.Tag), Pointers := base.Pointers,
          OuterArr := base.OuterArr, InnerArr := base.InnerArr } t hall
    rw [heq] at h
    simp only [Except.ok.injEq, Prod.mk.injEq] at h
    rw [← h.1]
    exact h5
  · rw [herr] at h; cases h

theorem structSpec_typedef (env : Env) (lower : Lowering) (t : Translator) (base : CTypeSpec)
    (typ : CCType) (deep : Nat) (s : CStructSpec) (t1 : Translator)
    (h : structSpec env lower t base typ deep = .ok (s, t1)) : s.Typedef = "" := by
  rw [structSpec_eq] at h
  split at h
  · simp only [Except.ok.injEq, Prod.mk.injEq] at h
    rw [← h.1]
  · cases hl : lowerAll lower deep t ((membersOf env typ).map (fun m => m.Typ)) with
    | error e => simp [hl] at h
    | ok r =>
      obtain ⟨tys, t2⟩ := r
      simp only [hl, Except.ok.injEq, Prod.mk.injEq] at h
      rw [← h.1]

/-- The fields that `functionSpec` sets on the returned node. -/
theorem functionSpec_fields (env : Env) (lower : Lowering) (t : Translator) (base : CTypeSpec)
    (typ : CCType) (deep : Nat) (s : CFunctionSpec) (t1 : Translator)
    (h : functionSpec env lower t base typ deep = .ok (s, t1)) :
    s.Typedef = "" ∧ s.Pointers = base.Pointers
      ∧ s.Raw = identifierOf env typ.Declarator.DirectDeclarator := by
  rw [functionSpec_eq] at h
  split at h
  · simp only [Except.ok.injEq, Prod.mk.injEq] at h
    rw [← h.1]
    exact ⟨rfl, rfl, rfl⟩
  · cases hr : lowerReturn env lower deep t typ with
    | error e => simp [hr] at h
    | ok r =>
      obtain ⟨ret, t2⟩ := r
      simp only [hr] at h
      cases hl : lowerAll lower deep t2 ((parametersOf env typ).map (fun p => p.Typ)) with
      | error e => simp [hl] at h
      | ok r2 =>
        obtain ⟨tys, t3⟩ := r2
        simp only [hl, Except.ok.injEq, Prod.mk.injEq] at h
        rw [← h.1]
        exact ⟨rfl, rfl, rfl⟩

/-- `functionSpec` reads nothing but the pointer depth from the decorations passed in. -/
theorem functionSpec_base (env : Env) (lower : Lowering) (t : Translator)
    (base base2 : CTypeSpec) (typ : CCType) (deep : Nat) (h : base.Pointers = base2.Pointers) :
    functionSpec env lower t base typ deep = functionSpec env lower t base2 typ deep := by
  unfold functionSpec
  rw [h]

/-- In return position the node returned by `typeSpec` carries no typedef alias, unless
the type on which the kind switch runs is a union. -/
theorem typeSpec_return_position_alias (env : Env) (t : Translator) (typ : CCType)
    (deep : Nat) (node : CType) (t1 : Translator)
    (h : typeSpec env t typ deep true = .ok (node, t1)) (hu : typ.baseOf.Kind ≠ .Union) :
    node.typedefAlias = "" := by
  rw [typeSpec_eq_switch] at h
  cases hb : typ.baseOf with
  | scalar kind s d =>
    simp only [hb, typeSpecSwitch] at h
    split at h
    · rename_i s2 hs
      simp only [Except.ok.injEq, Prod.mk.injEq] at h
      rw [← h.1]
      simp only [CType.typedefAlias]
      rw [scalarCase_raw _ _ _ hs]
      rfl
    · cases h
  | ptr s d e => simp [hb, typeSpecSwitch] at h
  | array s d n e => simp [hb, typeSpecSwitch] at h
  | union s d tag node => rw [hb] at hu; exact absurd rfl hu
  | enum s d tag ens =>
    simp only [hb, typeSpecSwitch] at h
    split at h
    · cases h
    · rename_i s2 t2 he
      simp only [Except.ok.injEq, Prod.mk.injEq] at h
      rw [← h.1]
      exact enumSpec_typedef env t _ _ _ _ he
  | struct s d tag node =>
    simp only [hb, typeSpecSwitch] at h
    split at h
    · cases h
    · rename_i s2 t2 he
      simp only [Except.ok.injEq, Prod.mk.injEq] at h
      rw [← h.1]
      exact structSpec_typedef env _ t _ _ _ _ _ he
  | function s d node =>
    simp only [hb, typeSpecSwitch] at h
    split at h
    · cases h
    · rename_i s2 t2 he
      simp only [Bool.not_true, Bool.false_and, Bool.false_eq_true, if_false,
        Except.ok.injEq, Prod.mk.injEq] at h
      rw [← h.1]
      exact (functionSpec_fields env _ t _ _ _ _ _ he).1

/-- C11 (failing input): in return position the node returned by `typeSpec` carries no
typedef alias when the kind switch runs on a scalar, enum, struct or function type; but
the union `U` of `typedef union { int i; } U;` lowered in return position comes back with
the typedef alias `U`, and so does the return node of `U g(void);`. -/
theorem typeSpec_return_position_union_alias :
    (∀ (env : Env) (t : Translator) (typ : CCType) (deep : Nat) (node : CType)
        (t1 : Translator), typeSpec env t typ deep true = .ok (node, t1) →
        typ.baseOf.Kind ≠ .Union → node.typedefAlias = "")
      ∧ (∃ node t1,
          typeSpec prototypeEnv (exampleTranslator .ConstEval) typedefUnion 1 true
              = .ok (node, t1)
            ∧ node.typedefAlias = "U")
      ∧ (∃ fs t1,
          typeSpec prototypeEnv (exampleTranslator .ConstEval) unionReturning 0 false
              = .ok (.functionSpec fs, t1)
            ∧ fs.Return.map CType.typedefAlias = some "U") :=
  ⟨typeSpec_return_position_alias, ⟨_, _, rfl, rfl⟩, ⟨_, _, rfl, rfl⟩⟩

/-! ### Arrays with unknown bound -/

theorem baseOf_array (s : Specifier) (d : TypeDeclarator) (n : Int) (e : CCType) :
    (CCType.array s d n e).baseOf = e.baseOf := rfl

/-- The type on which the kind switch runs for a pointer to `T`, and the pointer depth
the loops count: one more than the leading pointer levels of `T`. -/
theorem baseOf_ptr (s : Specifier) (d : TypeDeclarator) (T : CCType) :
    (CCType.ptr s d T).baseOf = T.belowPointers.belowArrays
      ∧ (CCType.ptr s d T).belowArrays.pointerLevels = T.pointerLevels + 1 :=
  ⟨rfl, rfl⟩

/-- The kind switch of `typeSpec` on a function type reads nothing but the pointer depth
from the accumulated decorations. -/
theorem typeSpecSwitch_function_base (env : Env) (lower : Lowering) (t : Translator)
    (spec spec2 : CTypeSpec) (s : Specifier) (d : TypeDeclarator) (node deep : Nat)
    (isRet : Bool) (h : spec.Pointers = spec2.Pointers) :
    typeSpecSwitch env lower t spec (.function s d node) deep isRet
      = typeSpecSwitch env lower t spec2 (.function s d node) deep isRet := by
  simp only [typeSpecSwitch, functionSpec_base env lower t spec spec2 _ _ h]

/-- C17 (amended): on a type whose base, reached after stripping outer arrays, pointers and
inner arrays, is a function type, `typeSpec` returns a Function node that records the
pointer depth and the raw name and nothing else of the decorations: two such types with
the same function base and the same pointer depth lower alike, whatever their array
bounds and const qualifiers. -/
theorem typeSpec_function_decorations (env : Env) (t : Translator) (typ typ2 : CCType)
    (deep : Nat) (isRet : Bool) (s : Specifier) (d : TypeDeclarator) (node : Nat)
    (h1 : typ.baseOf = .function s d node) (h2 : typ2.baseOf = .function s d node)
    (hp : typ.belowArrays.pointerLevels = typ2.belowArrays.pointerLevels) :
    typeSpec env t typ deep isRet = typeSpec env t typ2 deep isRet
      ∧ (∀ n t1, typeSpec env t typ deep isRet = .ok (n, t1) →
          ∃ fs, n = .functionSpec fs ∧ fs.Pointers = typ.belowArrays.pointerLevels
            ∧ fs.Raw = identifierOf env d.DirectDeclarator) := by
  refine ⟨?_, ?_⟩
  · rw [typeSpec_eq_switch, typeSpec_eq_switch, h1, h2]
    exact typeSpecSwitch_function_base env _ t _ _ s d node deep isRet hp
  · intro n t1 h
    rw [typeSpec_eq_switch, h1] at h
    simp only [typeSpecSwitch] at h
    split at h
    · cases h
    · rename_i fs t2 he
      obtain ⟨_, hptr, hraw⟩ := functionSpec_fields env _ t _ _ _ _ _ he
      split at h <;>
        (simp only [Except.ok.injEq, Prod.mk.injEq] at h
         exact ⟨_, h.1.symm, hptr, hraw⟩)

/-- C17 (counterexample): the array of 4 function pointers `int (*cbs[4])(int)` lowers to
the very node of the single function pointer `int (*cb1)(int)`, a Function node with
pointer depth 1. -/
theorem typeSpec_function_pointer_array_collapses :
    typeSpec prototypeEnv (exampleTranslator .ConstEval) callbackArray 0 false
        = typeSpec prototypeEnv (exampleTranslator .ConstEval) callbackPointer 0 false
      ∧ ∃ fs t1,
          typeSpec prototypeEnv (exampleTranslator .ConstEval) callbackArray 0 false
              = .ok (.functionSpec fs, t1)
            ∧ fs.Pointers = 1 ∧ (CType.functionSpec fs).OuterArr = [] :=
  ⟨rfl, _, _, rfl, rfl, rfl⟩

/-- Witness for C17 (amended): `int (*cbs[4])(int)` and `int (*cb1)(int)`. -/
theorem typeSpec_function_decorations_witness :
    typeSpec prototypeEnv (exampleTranslator .ConstEval) callbackArray 0 false
        = typeSpec prototypeEnv (exampleTranslator .ConstEval) callbackPointer 0 false
      ∧ (∀ n t1,
          typeSpec prototypeEnv (exampleTranslator .ConstEval) callbackArray 0 false
              = .ok (n, t1) →
            ∃ fs, n = .functionSpec fs ∧ fs.Pointers = callbackArray.belowArrays.pointerLevels
              ∧ fs.Raw = identifierOf prototypeEnv
                  (.suffix 4 (.ident ⟨40, "f", 1⟩))) :=
  typeSpec_function_decorations prototypeEnv (exampleTranslator .ConstEval) callbackArray
    callbackPointer 0 false {} { DirectDeclarator := .suffix 4 (.ident ⟨40, "f", 1⟩) } 3
    rfl rfl rfl

/-- C16 (amended): on a type whose base is a function type, when `functionSpec` at depth
`deep + 1` returns the node `fs`, `typeSpec` returns `fs` unchanged in return position or
when the type specifier is marked typedef; otherwise it sets the typedef alias to
`typedefNameOf` of the function type and applies `SetRaw` with that alias to the return
node when there is one.  That alias is the typedef name used as type specifier when there
is one, else the identifier of the declarator when its raw specifier is marked typedef,
else empty. -/
theorem typeSpec_function_alias (env : Env) (t : Translator) (typ : CCType) (deep : Nat)
    (isRet : Bool) (s : Specifier) (d : TypeDeclarator) (node : Nat) (fs : CFunctionSpec)
    (t1 : Translator) (hb : typ.baseOf = .function s d node)
    (hf : functionSpec env (typeSpec env) t { Pointers := typ.belowArrays.pointerLevels }
            (.function s d node) (deep + 1) = .ok (fs, t1)) :
    fs.Typedef = ""
      ∧ typeSpec env t typ deep isRet
          = .ok (.functionSpec
              (if !isRet && !s.IsTypedef then
                { fs with
                  Typedef := typedefNameOf env (.function s d node),
                  Return := fs.Return.map
                    (fun r => env.SetRaw r (typedefNameOf env (.function s d node))) }
               else fs), t1)
      ∧ typedefNameOf env (.function s d node)
          = (if d.RawSpecifier.TypedefName > 0 then
               env.blessName (env.DictS d.RawSpecifier.TypedefName)
             else if d.RawSpecifier.IsTypedef then identifierOf env d.DirectDeclarator
             else "") := by
  refine ⟨(functionSpec_fields env _ t _ _ _ _ _ hf).1, ?_, rfl⟩
  rw [typeSpec_eq_switch, hb]
  refine (typeSpecSwitch_function_base env (typeSpec env) t _
    { Pointers := typ.belowArrays.pointerLevels } s d node deep isRet ?_).trans ?_
  · rfl
  · simp only [typeSpecSwitch, hf, CCType.Specifier]
    split <;> rfl

/-- C16 (counterexample): the prototype `int f(int);`, lowered outside return position and
not declared via typedef, comes back with an empty typedef alias although the identifier of
its declarator is `f`, and the raw name of its return node stays empty. -/
theorem typeSpec_prototype_alias_empty :
    ∃ fs t1,
      typeSpec prototypeEnv (exampleTranslator .ConstEval) prototypeType 0 false
          = .ok (.functionSpec fs, t1)
        ∧ prototypeType.Specifier.IsTypedef = false
        ∧ identifierOf prototypeEnv prototypeType.Declarator.DirectDeclarator = "f"
        ∧ fs.Typedef = ""
        ∧ fs.Return.map CType.typedefAlias = some "" :=
  ⟨_, _, rfl, rfl, rfl, rfl, rfl⟩

/-- Witness for C16 (amended): the prototype `int f(int);`, lowered outside return position
with a type specifier that is not marked typedef, gets the alias `typedefNameOf` gives, which
is empty, and its return node gets it as raw name; the function pointer `cb` of
`typedef int (*cb)(int);`, whose type specifier is marked typedef, comes back as
`functionSpec` built it, without alias. -/
theorem typeSpec_function_alias_witness :
    (∃ fs t1,
      functionSpec prototypeEnv (typeSpec prototypeEnv) (exampleTranslator .ConstEval)
          { Pointers := prototypeType.belowArrays.pointerLevels } prototypeType (0 + 1)
          = .ok (fs, t1)
        ∧ typeSpec prototypeEnv (exampleTranslator .ConstEval) prototypeType 0 false
            = .ok (.functionSpec
                { fs with
                  Typedef := "",
                  Return := fs.Return.map (fun r => prototypeEnv.SetRaw r "") }, t1)
        ∧ typedefNameOf prototypeEnv prototypeType = "")
      ∧ (∃ fs t1,
          functionSpec prototypeEnv (typeSpec prototypeEnv) (exampleTranslator .ConstEval)
              { Pointers := callbackType.belowArrays.pointerLevels } callbackType.baseOf (0 + 1)
              = .ok (fs, t1)
            ∧ typeSpec prototypeEnv (exampleTranslator .ConstEval) callbackType 0 false
                = .ok (.functionSpec fs, t1)
            ∧ fs.Typedef = "" ∧ fs.Pointers = 1 ∧ fs.Raw = "cb"
            ∧ fs.Return.map CType.typedefAlias = some "") :=
  ⟨⟨_, _, rfl,
      (typeSpec_function_alias prototypeEnv (exampleTranslator .ConstEval) prototypeType 0
        false {} { DirectDeclarator := .suffix 4 (.ident ⟨40, "f", 1⟩) } 3 _ _ rfl rfl).2.1,
      rfl⟩,
    ⟨_, _, rfl,
      (typeSpec_function_alias prototypeEnv (exampleTranslator .ConstEval) callbackType 0
        false { IsTypedef := true } cbDeclarator 3 _ _ rfl rfl).2.1,
      rfl, rfl, rfl, rfl⟩⟩

/-! ### Integer kinds -/

/-- The scalar node of a component free type. -/
theorem loweredScalar_eq (env : Env) (t : Translator) (kind : ScalarKind) (s : Specifier)
    (d : TypeDeclarator) (deep : Nat) (isRet : Bool) :
    loweredScalar env t kind s d deep isRet
      = scalarCase (typeSpecInit env (.scalar kind s d) isRet) kind := by
  unfold loweredScalar
  rw [typeSpec_unfold, stripLevels_base (.scalar kind s d) _ rfl]
  simp only [typeSpecSwitch]
  cases scalarCase (typeSpecInit env (.scalar kind s d) isRet) kind <;> rfl

/-- C18 (amended): `unsigned long long` lowers to a Scalar with base `long`, Long and
Unsigned set and Short, Signed and Complex clear; `long long` lowers to base `long` with
Long set; `short`, `int`, `long` and their unsigned forms lower to base `int` with the
flags Short, Long and Unsigned telling them apart. -/
theorem typeSpec_integer_kinds (env : Env) (t : Translator) (s : Specifier)
    (d : TypeDeclarator) (deep : Nat) (isRet : Bool) :
    (loweredScalar env t .ULongLong s d deep isRet).map
        (fun c => (c.Base, c.Long, c.Unsigned, c.Short, c.Signed, c.Complex))
        = some ("long", true, true, false, false, false)
      ∧ [ScalarKind.Short, .UShort, .Int, .UInt, .Long, .ULong, .LongLong, .ULongLong].map
          (fun k => (loweredScalar env t k s d deep isRet).map
            (fun c => (c.Base, c.Short, c.Long, c.Unsigned, c.Signed, c.Complex)))
        = [some ("int", true, false, false, false, false),
           some ("int", true, false, true, false, false),
           some ("int", false, false, false, false, false),
           some ("int", false, false, true, false, false),
           some ("int", false, true, false, false, false),
           some ("int", false, true, true, false, false),
           some ("long", false, true, false, false, false),
           some ("long", false, true, true, false, false)] := by
  simp only [loweredScalar_eq, List.map]
  cases isRet <;> simp [scalarCase, typeSpecInit]

/-- C18 (counterexample): the base of `unsigned long long` is `long`, the base of `int` and
of `unsigned long` is `int`. -/
theorem typeSpec_unsigned_long_long_base :
    (loweredScalar exampleEnv (exampleTranslator .ConstEval) .ULongLong {} {} 0 false).map
        (fun c => c.Base) = some "long"
      ∧ (loweredScalar exampleEnv (exampleTranslator .ConstEval) .Int {} {} 0 false).map
          (fun c => c.Base) = some "int"
      ∧ (loweredScalar exampleEnv (exampleTranslator .ConstEval) .ULong {} {} 0 false).map
          (fun c => c.Base) = some "int"
      ∧ (loweredScalar exampleEnv (exampleTranslator .ConstEval) .ULongLong {} {} 0 false).map
          (fun c => c.Base)
        ≠ (loweredScalar exampleEnv (exampleTranslator .ConstEval) .Int {} {} 0 false).map
          (fun c => c.Base) := by
  refine ⟨rfl, rfl, rfl, ?_⟩
  decide

/-! ### What lowering writes to the constant maps -/

theorem reaches_trans (env : Env) {a b c : CCType} (h1 : Reaches env a b)
    (h2 : Reaches env b c) : Reaches env a c := by
  induction h1 with
  | here typ => exact h2
  | ptr s d e x _ ih => exact Reaches.ptr s d e c (ih h2)
  | array s d n e x _ ih => exact Reaches.array s d n e c (ih h2)
  | member s d tag node m x hm _ ih => exact Reaches.member s d tag node m c hm (ih h2)
  | result s d node r x hr _ ih => exact Reaches.result s d node r c hr (ih h2)
  | param s d node p x hp _ ih => exact Reaches.param s d node p c hp (ih h2)

theorem reaches_belowArrays (env : Env) : ∀ typ : CCType, Reaches env typ typ.belowArrays := by
  intro typ
  induction typ with
  | array s d n e ih => exact Reaches.array s d n e _ ih
  | _ => exact Reaches.here _

theorem reaches_belowPointers (env : Env) :
    ∀ typ : CCType, Reaches env typ typ.belowPointers := by
  intro typ
  induction typ with
  | ptr s d e ih => exact Reaches.ptr s d e _ ih
  | _ => exact Reaches.here _

theorem reaches_baseOf (env : Env) (typ : CCType) : Reaches env typ typ.baseOf :=
  reaches_trans env (reaches_belowArrays env typ)
    (reaches_trans env (reaches_belowPointers env _) (reaches_belowArrays env _))

theorem not_registersName_of_reaches (env : Env) {a b : CCType} {k : String}
    (h : Reaches env a b) (hk : ¬ registersName env a k) : ¬ registersName env b k := by
  intro ⟨s, d, tag, ens, hr, hmem⟩
  exact hk ⟨s, d, tag, ens, reaches_trans env h hr, hmem⟩

theorem lowerAll_keepsMaps (env : Env) (lower : Lowering) (deep : Nat)
    (hl : Lowering.keepsMaps env lower) (k : String) :
    ∀ (typs : List CCType) (t : Translator) (tys : List CType) (t1 : Translator),
      (∀ typ ∈ typs, ¬ registersName env typ k) →
      lowerAll lower deep t typs = .ok (tys, t1) →
      t1.valueMap k = t.valueMap k ∧ t1.exprMap k = t.exprMap k := by
  intro typs
  induction typs with
  | nil =>
    intro t tys t1 _ h
    simp only [lowerAll, Except.ok.injEq, Prod.mk.injEq] at h
    rw [← h.2]
    exact ⟨rfl, rfl⟩
  | cons typ rest ih =>
    intro t tys t1 hk h
    simp only [lowerAll] at h
    cases hlow : lower t typ (deep + 1) false with
    | error e => simp [hlow] at h
    | ok r =>
      obtain ⟨ty, t2⟩ := r
      simp only [hlow] at h
      cases hr : lowerAll lower deep t2 rest with
      | error e => simp [hr] at h
      | ok r2 =>
        obtain ⟨tys2, t3⟩ := r2
        simp only [hr, Except.ok.injEq, Prod.mk.injEq] at h
        obtain ⟨a1, a2⟩ := hl _ _ _ _ _ _ k hlow (hk typ (List.mem_cons_self _ _))
        obtain ⟨b1, b2⟩ := ih t2 tys2 t3 (fun x hx => hk x (List.mem_cons_of_mem _ hx)) hr
        rw [← h.2]
        exact ⟨b1.trans a1, b2.trans a2⟩

theorem lowerReturn_keepsMaps (env : Env) (lower : Lowering) (deep : Nat)
    (hl : Lowering.keepsMaps env lower) (k : String) (t : Translator) (typ : CCType)
    (ret : Option CType) (t1 : Translator)
    (hk : ∀ r, resultOf env typ = some r → ¬ registersName env r k)
    (h : lowerReturn env lower deep t typ = .ok (ret, t1)) :
    t1.valueMap k = t.valueMap k ∧ t1.exprMap k = t.exprMap k := by
  unfold lowerReturn at h
  cases hres : resultOf env typ with
  | none =>
    simp only [hres, Except.ok.injEq, Prod.mk.injEq] at h
    rw [← h.2]
    exact ⟨rfl, rfl⟩
  | some r =>
    simp only [hres] at h
    by_cases hv : r.Kind = .Void
    · simp only [hv, if_true, Except.ok.injEq, Prod.mk.injEq] at h
      rw [← h.2]
      exact ⟨rfl, rfl⟩
    · simp only [hv, if_false] at h
      cases hlow : lower t r (deep + 1) true with
      | error e => simp [hlow] at h
      | ok r2 =>
        obtain ⟨ty, t2⟩ := r2
        simp only [hlow, Except.ok.injEq, Prod.mk.injEq] at h
        rw [← h.2]
        exact hl _ _ _ _ _ _ k hlow (hk r hres)

theorem typeSpecSwitch_keepsMaps (env : Env) (lower : Lowering)
    (hl : Lowering.keepsMaps env lower) (t : Translator) (spec : CTypeSpec) (typ : CCType)
    (deep : Nat) (isRet : Bool) (node : CType) (t1 : Translator) (k : String)
    (h : typeSpecSwitch env lower t spec typ deep isRet = .ok (node, t1))
    (hk : ¬ registersName env typ k) :
    t1.valueMap k = t.valueMap k ∧ t1.exprMap k = t.exprMap k := by
  cases typ with
  | scalar kind s d =>
    simp only [typeSpecSwitch] at h
    split at h
    · simp only [Except.ok.injEq, Prod.mk.injEq] at h
      rw [← h.2]
      exact ⟨rfl, rfl⟩
    · cases h
  | ptr s d e => simp [typeSpecSwitch] at h
  | array s d n e => simp [typeSpecSwitch] at h
  | union s d tag node =>
    simp only [typeSpecSwitch, Except.ok.injEq, Prod.mk.injEq] at h
    rw [← h.2]
    exact ⟨rfl, rfl⟩
  | enum s d tag ens =>
    simp only [typeSpecSwitch] at h
    split at h
    · cases h
    · rename_i s2 t2 he
      simp only [Except.ok.injEq, Prod.mk.injEq] at h
      rw [← h.2]
      unfold enumSpec at he
      refine enumSpecLoop_frame env _ _ _ _ _ he k ?_
      intro hmem
      exact hk ⟨s, d, tag, ens, Reaches.here _, hmem⟩
  | struct s d tag node =>
    simp only [typeSpecSwitch] at h
    split at h
    · cases h
    · rename_i s2 t2 he
      simp only [Except.ok.injEq, Prod.mk.injEq] at h
      rw [← h.2]
      rw [structSpec_eq] at he
      split at he
      · simp only [Except.ok.injEq, Prod.mk.injEq] at he
        rw [← he.2]
        exact ⟨rfl, rfl⟩
      · cases hla : lowerAll lower (deep + 1) t
            ((membersOf env (.struct s d tag node)).map (fun m => m.Typ)) with
        | error e => simp [hla] at he
        | ok r =>
          obtain ⟨tys, t3⟩ := r
          simp only [hla, Except.ok.injEq, Prod.mk.injEq] at he
          rw [← he.2]
          refine lowerAll_keepsMaps env lower (deep + 1) hl k _ _ _ _ ?_ hla
          intro x hx
          obtain ⟨m, hm, rfl⟩ := List.mem_map.mp hx
          exact not_registersName_of_reaches env
            (Reaches.member s d tag node m _ hm (Reaches.here _)) hk
  | function s d node =>
    simp only [typeSpecSwitch] at h
    split at h
    · cases h
    · rename_i s2 t2 he
      have ht : t1 = t2 := by
        split at h <;>
          (simp only [Except.ok.injEq, Prod.mk.injEq] at h; exact h.2.symm)
      subst ht
      rw [functionSpec_eq] at he
      split at he
      · simp only [Except.ok.injEq, Prod.mk.injEq] at he
        rw [← he.2]
        exact ⟨rfl, rfl⟩
      · cases hret : lowerReturn env lower (deep + 1) t (.function s d node) with
        | error e => simp [hret] at he
        | ok r =>
          obtain ⟨ret, t3⟩ := r
          simp only [hret] at he
          cases hla : lowerAll lower (deep + 1) t3
              ((parametersOf env (.function s d node)).map (fun p => p.Typ)) with
          | error e => simp [hla] at he
          | ok r2 =>
            obtain ⟨tys, t4⟩ := r2
            simp only [hla, Except.ok.injEq, Prod.mk.injEq] at he
            rw [← he.2]
            obtain ⟨a1, a2⟩ := lowerReturn_keepsMaps env lower (deep + 1) hl k t
              (.function s d node) _ _
              (fun r (hr : env.Result node = some r) => not_registersName_of_reaches env
                (Reaches.result s d node r _ hr (Reaches.here _)) hk) hret
            obtain ⟨b1, b2⟩ := lowerAll_keepsMaps env lower (deep + 1) hl k _ _ _ _
              (fun x hx => by
                obtain ⟨p, hp, rfl⟩ := List.mem_map.mp hx
                exact not_registersName_of_reaches env
                  (Reaches.param s d node p _ hp (Reaches.here _)) hk) hla
            exact ⟨b1.trans a1, b2.trans a2⟩

/-- Lowering a type writes the constant maps only under names of enumerators of enums that
it may reach from the type. -/
theorem typeSpecFuel_keepsMaps (env : Env) :
    ∀ fuel, Lowering.keepsMaps env (typeSpecFuel env fuel) := by
  intro fuel
  induction fuel with
  | zero => intro t typ deep isRet node t1 k h; simp [typeSpecFuel] at h
  | succ n ih =>
    intro t typ deep isRet node t1 k h hk
    rw [typeSpecFuel_succ] at h
    exact typeSpecSwitch_keepsMaps env _ ih t _ _ deep isRet node t1 k h
      (not_registersName_of_reaches env (reaches_baseOf env typ) hk)

/-- C12 (amended): a call of `typeSpec` that returns leaves the public declaration list,
the typedef registry, the typedef name set, the policy table and the file scope as they
were, and leaves both constant maps as they were under every name that is not the name of
an enumerator of an enum reachable from the lowered type. -/
theorem typeSpec_state_frame (env : Env) (t : Translator) (typ : CCType) (deep : Nat)
    (isRet : Bool) (node : CType) (t1 : Translator)
    (h : typeSpec env t typ deep isRet = .ok (node, t1)) :
    t1.declares = t.declares ∧ t1.typedefs = t.typedefs ∧ t1.typedefsSet = t.typedefsSet
      ∧ t1.constRules = t.constRules ∧ t1.fileScope = t.fileScope
      ∧ (∀ k, ¬ registersName env typ k →
          t1.valueMap k = t.valueMap k ∧ t1.exprMap k = t.exprMap k) := by
  obtain ⟨h1, h2, h3, h4, h5⟩ := typeSpecFuel_sameOutputs env _ _ _ _ _ _ _ h
  exact ⟨h3, h4, h5, h1, h2, fun k hk => typeSpecFuel_keepsMaps env _ _ _ _ _ _ _ k h hk⟩

/-- C12 (counterexample): lowering `enum Color { RED, GREEN=5, BLUE }` by `typeSpec` from a
state whose constant maps are empty ends with RED bound in both maps. -/
theorem typeSpec_writes_constant_maps :
    ∃ node t1,
      typeSpec exampleEnv (exampleTranslator .ConstEval) colorEnum 0 false = .ok (node, t1)
        ∧ (exampleTranslator .ConstEval).valueMap "RED" = none
        ∧ t1.valueMap "RED" = some (some (.int 0))
        ∧ (exampleTranslator .ConstEval).exprMap "RED" = none
        ∧ t1.exprMap "RED" = some "" :=
  ⟨_, _, rfl, rfl, rfl, rfl, rfl⟩

/-- Witness for C12 (amended): lowering `enum Color { RED, GREEN=5, BLUE }` leaves the
outputs alone, and the maps too under the name `T`, which no enumerator carries. -/
theorem typeSpec_state_frame_witness :
    ∃ node t1,
      typeSpec exampleEnv (exampleTranslator .ConstEval) colorEnum 0 false = .ok (node, t1)
        ∧ t1.declares = (exampleTranslator .ConstEval).declares
        ∧ t1.typedefs = (exampleTranslator .ConstEval).typedefs
        ∧ t1.typedefsSet = (exampleTranslator .ConstEval).typedefsSet
        ∧ ¬ registersName exampleEnv colorEnum "T"
        ∧ t1.valueMap "T" = (exampleTranslator .ConstEval).valueMap "T"
        ∧ t1.exprMap "T" = (exampleTranslator .ConstEval).exprMap "T" := by
  have hnot : ¬ registersName exampleEnv colorEnum "T" := by
    intro ⟨s, d, tag, ens, hr, hk⟩
    unfold colorEnum at hr
    cases hr
    revert hk
    decide
  have h := typeSpec_state_frame exampleEnv (exampleTranslator .ConstEval) colorEnum 0 false
    _ _ rfl
  exact ⟨_, _, rfl, h.1, h.2.1, h.2.2.1, hnot, (h.2.2.2.2.2 "T" hnot).1,
    (h.2.2.2.2.2 "T" hnot).2⟩

/-! ### Static declarations -/

end CForGo
